import Mathlib

/-!
Digit-by-digit arithmetic (`digit_arith.c`).

A shallow embedding of `add_sub`, `add_one_bcd_m`, `add_one_bcd_x` and of the
self-test table of `digit_arith.c`, followed by theorems about them.

Conventions of the embedding:

* a `uint64_t` is a natural number below `2 ^ 64`; every operation that can leave
  that range in C is reduced modulo `2 ^ 64` explicitly;
* an `int` index is an `Int`; the `int` digits (`arg1_digit`, `arg2_digit`,
  `sum_digit`) never leave `0 .. 37` and are natural numbers;
* a shift whose count is negative or at least 64 is undefined in C: the shifts
  return `none` there, and so does everything that depends on them;
* the out-parameter `carry_out` is the second component of the returned pair; a
  caller that passes a null pointer keeps only the first component.
-/

namespace DigitArith

/-! ## The code -/

/-- The operator `<<` on a `uint64_t`, undefined (`none`) for a count outside `0 .. 63`. -/
def shl64 (x : Nat) (n : Int) : Option Nat :=
  if 0 ≤ n ∧ n < 64 then some ((x <<< n.toNat) % 2 ^ 64) else none

/-- The operator `>>` on a `uint64_t`, undefined (`none`) for a count outside `0 .. 63`. -/
def shr64 (x : Nat) (n : Int) : Option Nat :=
  if 0 ≤ n ∧ n < 64 then some (x >>> n.toNat) else none

/-- The operator `~` on a `uint64_t`. -/
def not64 (x : Nat) : Nat := 0xFFFFFFFFFFFFFFFF ^^^ x

/-- The constant `zero` of the source. -/
def zero : Nat := 0

/-- One pass through the body of the `for` loop of `add_sub`, at index `digit_idx`, from the
loop state `(result, carry)` to the next loop state. The product `digit_idx * 4` is taken in
the integers: where it would overflow an `int`, the shift by it is undefined as well. -/
def add_sub_iter (bcd subtract : Bool) (arg1 arg2 : Nat) (digit_idx : Int)
    (result : Nat) (carry : Bool) : Option (Nat × Bool) := do
  let shift_count := digit_idx * 4
  let mask ← shl64 0xf shift_count
  let arg1_digit ← shr64 (arg1 &&& mask) shift_count
  let arg2_digit ← shr64 (arg2 &&& mask) shift_count
  let arg2_digit := if subtract then arg2_digit ^^^ 0xf else arg2_digit
  let sum_digit := arg1_digit + arg2_digit + carry.toNat
  let carry := decide (sum_digit > 0xf)
  let adjusted : Nat × Bool :=
    if bcd then
      if subtract then
        if !carry then (sum_digit + 10, carry) else (sum_digit, carry)
      else
        let carry := carry || decide (sum_digit > 9)
        if carry then (sum_digit + 6, carry) else (sum_digit, carry)
    else (sum_digit, carry)
  let sum_digit := adjusted.1
  let carry := adjusted.2
  let digit_bits ← shl64 (sum_digit &&& 0xf) shift_count
  pure ((result &&& not64 mask) ||| digit_bits, carry)

/-- The `for` loop of `add_sub`, entered with loop variable `digit_idx` and loop state
`(result, carry)`: while `digit_idx ≤ high_digit_idx`, run the body and increment. -/
def add_sub_loop (bcd subtract : Bool) (arg1 arg2 : Nat) (high_digit_idx : Int)
    (digit_idx : Int) (result : Nat) (carry : Bool) : Option (Nat × Bool) :=
  if digit_idx ≤ high_digit_idx then
    match add_sub_iter bcd subtract arg1 arg2 digit_idx result carry with
    | none => none
    | some st =>
      add_sub_loop bcd subtract arg1 arg2 high_digit_idx (digit_idx + 1) st.1 st.2
  else
    some (result, carry)
termination_by (high_digit_idx + 1 - digit_idx).toNat
decreasing_by omega

/-- The function `add_sub`: the result word and the value stored through `carry_out`. -/
def add_sub (bcd subtract : Bool) (arg1 arg2 : Nat) (carry_in : Bool)
    (low_digit_idx high_digit_idx : Int) : Option (Nat × Bool) :=
  let result := arg1
  let carry := Bool.xor carry_in subtract
  match add_sub_loop bcd subtract arg1 arg2 high_digit_idx low_digit_idx result carry with
  | none => none
  | some st => some (st.1, Bool.xor st.2 subtract)

/-- The function `add_one_bcd_m`; the carry-out is discarded. -/
def add_one_bcd_m (arg : Nat) : Option Nat :=
  (add_sub true false arg zero true 3 12).map Prod.fst

/-- The function `add_one_bcd_x`; the carry-out is discarded. -/
def add_one_bcd_x (arg : Nat) : Option Nat :=
  (add_sub true false arg zero true 0 1).map Prod.fst

/-- The record `test_case_t`. -/
structure test_case_t where
  arg : Nat
  expected_result_m : Nat
  expected_result_x : Nat

/-- The table `test_cases`. -/
def test_cases : List test_case_t :=
  [ ⟨0x00000000000000, 0x00000000001000, 0x00000000000001⟩,
    ⟨0x00000000009009, 0x00000000010009, 0x00000000009010⟩,
    ⟨0x0000000000a00a, 0x0000000001100a, 0x0000000000a011⟩,
    ⟨0xf006a0000000ab, 0xf00700000010ab, 0xf006a000000012⟩ ]

/-- The body of the loop of `main` without its printing: from the running `fail_count` to the
next one, for one row of the table. -/
def main_iter (fail_count : Nat) (test_case : test_case_t) : Option Nat := do
  let fail := false
  let result_m ← add_one_bcd_m test_case.arg
  let result_x ← add_one_bcd_x test_case.arg
  let fail := if result_m = test_case.expected_result_m then fail else true
  let fail := if result_x = test_case.expected_result_x then fail else true
  pure (if fail then fail_count + 1 else fail_count)

/-- The number `fail_count` that `main` prints after its loop over `test_cases`. -/
def main_fail_count : Option Nat :=
  test_cases.foldlM main_iter 0

/-! ## Observations on packed words -/

/-- Slot `i` of a packed word: its `i`-th four-bit digit, slot 0 the least significant. -/
def slot (x i : Nat) : Nat := x / 16 ^ i % 16

/-- The `w` slots `low, low + 1, ..., low + w - 1` of `x` read as a `w`-digit number in base
`base`, slot `low` the least significant digit. -/
def field_value (base x low : Nat) : Nat → Nat
  | 0 => 0
  | w + 1 => field_value base x low w + base ^ w * slot x (low + w)

/-- The base of the digits: ten in decimal mode, sixteen otherwise. -/
def radix (bcd : Bool) : Nat := if bcd then 10 else 16

/-- The digits of `x` in the slots `low .. high` are digits of the mode's base. In hexadecimal
mode this says nothing; in decimal mode it says that they are at most 9. -/
def well_formed (bcd : Bool) (x low high : Nat) : Prop :=
  ∀ i, low ≤ i → i ≤ high → slot x i < radix bcd

/-! ## Auxiliary descriptions used in the proofs -/

/-- The arithmetic that one pass of the loop body of `add_sub` performs on the two digits it
has extracted: the nibble it stores and the carry it leaves. -/
def digit_op (bcd subtract : Bool) (arg1_digit arg2_digit : Nat) (carry : Bool) : Nat × Bool :=
  let arg2_digit := if subtract then arg2_digit ^^^ 0xf else arg2_digit
  let sum_digit := arg1_digit + arg2_digit + carry.toNat
  let carry := decide (sum_digit > 0xf)
  let adjusted : Nat × Bool :=
    if bcd then
      if subtract then
        if !carry then (sum_digit + 10, carry) else (sum_digit, carry)
      else
        let carry := carry || decide (sum_digit > 9)
        if carry then (sum_digit + 6, carry) else (sum_digit, carry)
    else (sum_digit, carry)
  (adjusted.1 &&& 0xf, adjusted.2)

/-- The value of the variable `carry` after `k` passes of the loop that started at slot `low`
with `carry`. -/
def carry_at (bcd subtract : Bool) (arg1 arg2 low : Nat) (carry : Bool) : Nat → Bool
  | 0 => carry
  | k + 1 =>
    (digit_op bcd subtract (slot arg1 (low + k)) (slot arg2 (low + k))
      (carry_at bcd subtract arg1 arg2 low carry k)).2

/-- The nibble stored in slot `low + k` by the loop that started at slot `low` with `carry`. -/
def nibble_at (bcd subtract : Bool) (arg1 arg2 low : Nat) (carry : Bool) (k : Nat) : Nat :=
  (digit_op bcd subtract (slot arg1 (low + k)) (slot arg2 (low + k))
    (carry_at bcd subtract arg1 arg2 low carry k)).1

/-- The loop body run `n` times in a row, from index `digit_idx` upwards. -/
def add_sub_passes (bcd subtract : Bool) (arg1 arg2 : Nat) :
    Nat → Int → Nat → Bool → Option (Nat × Bool)
  | 0, _, result, carry => some (result, carry)
  | n + 1, digit_idx, result, carry =>
    match add_sub_iter bcd subtract arg1 arg2 digit_idx result carry with
    | none => none
    | some st => add_sub_passes bcd subtract arg1 arg2 n (digit_idx + 1) st.1 st.2

/-! ## The loop with a record of its shifts -/

/-- The `for` loop of `add_sub` together with a ghost record: the same loop as `add_sub_loop`,
which in addition appends to `log` the value of `shift_count` of every pass it enters. -/
def add_sub_loop_log (bcd subtract : Bool) (arg1 arg2 : Nat) (high_digit_idx : Int)
    (digit_idx : Int) (result : Nat) (carry : Bool) (log : List Int) :
    Option (Nat × Bool) × List Int :=
  if digit_idx ≤ high_digit_idx then
    match add_sub_iter bcd subtract arg1 arg2 digit_idx result carry with
    | none => (none, log ++ [digit_idx * 4])
    | some st =>
      add_sub_loop_log bcd subtract arg1 arg2 high_digit_idx (digit_idx + 1) st.1 st.2
        (log ++ [digit_idx * 4])
  else
    (some (result, carry), log)
termination_by (high_digit_idx + 1 - digit_idx).toNat
decreasing_by omega

/-- The function `add_sub` together with the ghost record of its loop: what it returns, and the
values of `shift_count` of the passes of the loop body, in the order they were entered. -/
def add_sub_log (bcd subtract : Bool) (arg1 arg2 : Nat) (carry_in : Bool)
    (low_digit_idx high_digit_idx : Int) : Option (Nat × Bool) × List Int :=
  let result := arg1
  let carry := Bool.xor carry_in subtract
  let run := add_sub_loop_log bcd subtract arg1 arg2 high_digit_idx low_digit_idx result carry []
  (match run.1 with
    | none => none
    | some st => some (st.1, Bool.xor st.2 subtract),
   run.2)

/-! ## The reference procedure of the specification -/

/-- Steps 2 to 4 of the algorithm of section 4.1 of the specification, and the masking of its
step 5, on one pair of digits: complement the digit of `operand_b` when subtracting; compute
`raw` and set the running carry to `raw > 0xF`; in decimal mode, when subtracting add 10 if no
carry resulted, when adding, if `raw > 9`, force the carry and add 6. Returns `raw & 0xF` and
the running carry. -/
def spec_digit (decimal_mode subtract : Bool) (digit_a digit_b : Nat) (running_carry : Bool) :
    Nat × Bool :=
  let digit_b_c := if subtract then digit_b ^^^ 0xF else digit_b
  let raw := digit_a + digit_b_c + running_carry.toNat
  let running_carry := decide (raw > 0xF)
  let corrected : Nat × Bool :=
    if decimal_mode then
      if subtract then
        if running_carry = false then (raw + 10, running_carry) else (raw, running_carry)
      else
        if raw > 9 then (raw + 6, true) else (raw, running_carry)
    else (raw, running_carry)
  (corrected.1 &&& 0xF, corrected.2)

/-- Step 5 of the algorithm of the specification: the word `word` with the digit `v` written
into slot `i`, replacing whatever was there: the slots below `i` are kept, slot `i` is `v`,
the slots above `i` are kept. -/
def spec_write_slot (word i v : Nat) : Nat :=
  word % 16 ^ i + v * 16 ^ i + word / 16 ^ (i + 1) * 16 ^ (i + 1)

/-- One slot of the algorithm of the specification, from the pair of the result word and the
running carry to the next such pair. -/
def spec_step (decimal_mode subtract : Bool) (operand_a operand_b : Nat)
    (state : Nat × Bool) (i : Nat) : Nat × Bool :=
  let d := spec_digit decimal_mode subtract (slot operand_a i) (slot operand_b i) state.2
  (spec_write_slot state.1 i d.1, d.2)

/-- The reference procedure of section 4.1 of the specification: the result word starts as a
copy of `operand_a`, the running carry is seeded as `carry_in XOR subtract`, the slots from
`low_index` to `high_index` are gone through in increasing order, and the flag returned is the
final running carry `XOR subtract`. -/
def spec_add_sub (decimal_mode subtract : Bool) (operand_a operand_b : Nat) (carry_in : Bool)
    (low_index high_index : Nat) : Nat × Bool :=
  let final := (List.range' low_index (high_index + 1 - low_index)).foldl
    (spec_step decimal_mode subtract operand_a operand_b)
    (operand_a, Bool.xor carry_in subtract)
  (final.1, Bool.xor final.2 subtract)

/-! ## Bit-level facts -/

theorem slot_lt (x i : Nat) : slot x i < 16 := Nat.mod_lt _ (by norm_num)

theorem testBit_slot (x i k : Nat) :
    (slot x i).testBit k = (decide (k < 4) && x.testBit (4 * i + k)) := by
  have h : slot x i = (x >>> (4 * i)) % 2 ^ 4 := by
    simp [slot, Nat.shiftRight_eq_div_pow, Nat.pow_mul]
  rw [h, Nat.testBit_mod_two_pow, Nat.testBit_shiftRight]

theorem slot_eq_of_testBit {x y i j : Nat}
    (h : ∀ k, k < 4 → x.testBit (4 * i + k) = y.testBit (4 * j + k)) : slot x i = slot y j := by
  apply Nat.eq_of_testBit_eq
  intro k
  rw [testBit_slot, testBit_slot]
  by_cases hk : k < 4
  · simp [hk, h k hk]
  · simp [hk]

theorem testBit_fifteen (k : Nat) : (15 : Nat).testBit k = decide (k < 4) :=
  Nat.testBit_two_pow_sub_one 4 k

theorem testBit_mask (i n : Nat) (hi : i ≤ 15) :
    ((15 <<< (4 * i)) % 2 ^ 64).testBit n = decide (4 * i ≤ n ∧ n < 4 * i + 4) := by
  rw [Nat.testBit_mod_two_pow, Nat.testBit_shiftLeft, testBit_fifteen]
  by_cases h1 : 4 * i ≤ n <;> by_cases h2 : n < 4 * i + 4 <;> simp [h1, h2] <;> omega

theorem extract_eq_slot (x i : Nat) (hi : i ≤ 15) :
    (x &&& ((15 <<< (4 * i)) % 2 ^ 64)) >>> (4 * i) = slot x i := by
  apply Nat.eq_of_testBit_eq
  intro k
  rw [testBit_slot, Nat.testBit_shiftRight, Nat.testBit_and, testBit_mask i _ hi]
  by_cases hk : k < 4 <;> simp [hk]

/-- The word written back by the loop body: slot `i` of `result` replaced by the nibble `v`. -/
theorem testBit_store (result v i n : Nat) (hi : i ≤ 15) (hv : v < 16) :
    ((result &&& not64 ((15 <<< (4 * i)) % 2 ^ 64)) ||| ((v <<< (4 * i)) % 2 ^ 64)).testBit n =
      if 4 * i ≤ n ∧ n < 4 * i + 4 then v.testBit (n - 4 * i)
      else (decide (n < 64) && result.testBit n) := by
  have hall : (0xFFFFFFFFFFFFFFFF : Nat).testBit n = decide (n < 64) :=
    Nat.testBit_two_pow_sub_one 64 n
  have hvb : ∀ m, 4 ≤ m → v.testBit m = false := by
    intro m hm
    apply Nat.testBit_lt_two_pow
    calc v < 2 ^ 4 := hv
      _ ≤ 2 ^ m := Nat.pow_le_pow_right (by norm_num) hm
  rw [Nat.testBit_or, Nat.testBit_and, not64, Nat.testBit_xor, hall, testBit_mask i n hi,
    Nat.testBit_mod_two_pow, Nat.testBit_shiftLeft]
  by_cases h1 : 4 * i ≤ n
  · by_cases h2 : n < 4 * i + 4
    · have h3 : n < 64 := by omega
      simp [h1, h2, h3]
    · have h4 := hvb (n - 4 * i) (by omega)
      simp [h1, h2, h4, Bool.and_comm]
  · have h3 : n < 64 := by omega
    simp [h1, h3]

theorem toNat_shift_count (i : Nat) : ((i : Int) * 4).toNat = 4 * i := by omega

/-- What one pass of the loop body does, in terms of slots. -/
theorem add_sub_iter_spec (bcd subtract : Bool) (arg1 arg2 i result : Nat) (carry : Bool)
    (hi : i ≤ 15) :
    ∃ r, add_sub_iter bcd subtract arg1 arg2 (i : Int) result carry =
          some (r, (digit_op bcd subtract (slot arg1 i) (slot arg2 i) carry).2) ∧
      r < 2 ^ 64 ∧
      slot r i = (digit_op bcd subtract (slot arg1 i) (slot arg2 i) carry).1 ∧
      ∀ j, j ≤ 15 → j ≠ i → slot r j = slot result j := by
  have hc : (0 : Int) ≤ (i : Int) * 4 ∧ (i : Int) * 4 < 64 := by omega
  have hv : (digit_op bcd subtract (slot arg1 i) (slot arg2 i) carry).1 < 16 := by
    have h15 : ∀ m : Nat, m &&& 0xf = m % 2 ^ 4 := fun m => Nat.and_pow_two_sub_one_eq_mod m 4
    simp only [digit_op, h15]
    exact Nat.mod_lt _ (by norm_num)
  refine ⟨(result &&& not64 ((15 <<< (4 * i)) % 2 ^ 64)) |||
      (((digit_op bcd subtract (slot arg1 i) (slot arg2 i) carry).1 <<< (4 * i)) % 2 ^ 64),
    ?_, ?_, ?_, ?_⟩
  · simp only [add_sub_iter, shl64, shr64, hc, and_self, if_true, toNat_shift_count,
      bind, Option.bind, pure, extract_eq_slot _ i hi, digit_op]
  · apply Nat.lt_pow_two_of_testBit
    intro n hn
    rw [testBit_store _ _ _ _ hi hv]
    have h1 : ¬ (4 * i ≤ n ∧ n < 4 * i + 4) := by omega
    have h2 : ¬ n < 64 := by omega
    simp [h1, h2]
  · apply Nat.eq_of_testBit_eq
    intro k
    rw [testBit_slot, testBit_store _ _ _ _ hi hv]
    by_cases hk : k < 4
    · have h1 : 4 * i ≤ 4 * i + k ∧ 4 * i + k < 4 * i + 4 := by omega
      simp [hk]
    · have h2 : (digit_op bcd subtract (slot arg1 i) (slot arg2 i) carry).1.testBit k = false := by
        apply Nat.testBit_lt_two_pow
        calc _ < 2 ^ 4 := hv
          _ ≤ 2 ^ k := Nat.pow_le_pow_right (by norm_num) (by omega)
      simp [hk, h2]
  · intro j hj hne
    apply slot_eq_of_testBit
    intro k hk
    rw [testBit_store _ _ _ _ hi hv]
    have h1 : ¬ (4 * i ≤ 4 * j + k ∧ 4 * j + k < 4 * i + 4) := by omega
    have h2 : 4 * j + k < 64 := by omega
    simp [h1, h2]

/-! ## The loop, slot by slot -/

theorem carry_at_shift (bcd subtract : Bool) (arg1 arg2 i : Nat) (carry : Bool) (k : Nat) :
    carry_at bcd subtract arg1 arg2 (i + 1)
        (digit_op bcd subtract (slot arg1 i) (slot arg2 i) carry).2 k =
      carry_at bcd subtract arg1 arg2 i carry (k + 1) := by
  induction k with
  | zero => simp [carry_at]
  | succ k ih =>
    rw [carry_at, ih]
    have h : i + 1 + k = i + (k + 1) := by omega
    rw [h]
    rfl

theorem nibble_at_shift (bcd subtract : Bool) (arg1 arg2 i : Nat) (carry : Bool) (k : Nat) :
    nibble_at bcd subtract arg1 arg2 (i + 1)
        (digit_op bcd subtract (slot arg1 i) (slot arg2 i) carry).2 k =
      nibble_at bcd subtract arg1 arg2 i carry (k + 1) := by
  have h : i + 1 + k = i + (k + 1) := by omega
  rw [nibble_at, nibble_at, carry_at_shift, h]

/-- The loop over the `n` slots `i, ..., i + n - 1`: it returns, its carry is `carry_at`, the
slots it went through hold `nibble_at`, and the other slots are those of `result`. -/
theorem add_sub_loop_spec (bcd subtract : Bool) (arg1 arg2 : Nat) (n : Nat) :
    ∀ (i result : Nat) (carry : Bool), i + n ≤ 16 →
    ∃ r, add_sub_loop bcd subtract arg1 arg2 ((i : Int) + n - 1) (i : Int) result carry =
          some (r, carry_at bcd subtract arg1 arg2 i carry n) ∧
      (0 < n → r < 2 ^ 64) ∧
      (n = 0 → r = result) ∧
      (∀ k, k < n → slot r (i + k) = nibble_at bcd subtract arg1 arg2 i carry k) ∧
      ∀ j, j ≤ 15 → (j < i ∨ i + n ≤ j) → slot r j = slot result j := by
  induction n with
  | zero =>
    intro i result carry _
    refine ⟨result, ?_, ?_, ?_, ?_, ?_⟩
    · rw [add_sub_loop]
      have h : ¬ ((i : Int) ≤ (i : Int) + ((0 : Nat) : Int) - 1) := by omega
      simp [h, carry_at]
    · intro h; omega
    · intro _; rfl
    · intro k hk; omega
    · intro j _ _; rfl
  | succ n ih =>
    intro i result carry hin
    obtain ⟨r1, hr1, hr1lt, hr1i, hr1o⟩ :=
      add_sub_iter_spec bcd subtract arg1 arg2 i result carry (by omega)
    obtain ⟨r, hr, hrlt, hr0, hrin, hrout⟩ :=
      ih (i + 1) r1 (digit_op bcd subtract (slot arg1 i) (slot arg2 i) carry).2 (by omega)
    refine ⟨r, ?_, ?_, ?_, ?_, ?_⟩
    · rw [add_sub_loop]
      have h : (i : Int) ≤ (i : Int) + ((n + 1 : Nat) : Int) - 1 := by omega
      have h2 : (i : Int) + ((n + 1 : Nat) : Int) - 1 = ((i + 1 : Nat) : Int) + (n : Int) - 1 := by
        push_cast; ring
      have h3 : (i : Int) + 1 = ((i + 1 : Nat) : Int) := by push_cast; rfl
      simp only [h, if_true, hr1]
      rw [h2, h3, hr, carry_at_shift]
    · intro _
      rcases Nat.eq_zero_or_pos n with h0 | hpos
      · rw [hr0 h0]; exact hr1lt
      · exact hrlt hpos
    · intro h; omega
    · intro k hk
      rcases Nat.eq_zero_or_pos k with h0 | hpos
      · subst h0
        rw [Nat.add_zero, hrout i (by omega) (Or.inl (by omega)), hr1i]
        simp [nibble_at, carry_at]
      · obtain ⟨k', rfl⟩ : ∃ k', k = k' + 1 := ⟨k - 1, by omega⟩
        have h := hrin k' (by omega)
        rw [nibble_at_shift] at h
        rw [← h]
        congr 1
        omega
    · intro j hj hout
      rw [hrout j hj (by omega), hr1o j hj (by omega)]

/-- The function `add_sub` on a range `low ≤ high ≤ 15`: it returns; the flag it stores is the
last carry of the loop, complemented when subtracting; the slots of the range hold the nibbles
of the loop; the other slots are those of `arg1`. -/
theorem add_sub_spec (bcd subtract : Bool) (arg1 arg2 : Nat) (carry_in : Bool) (low high : Nat)
    (hlh : low ≤ high) (hh : high ≤ 15) :
    ∃ r, add_sub bcd subtract arg1 arg2 carry_in (low : Int) (high : Int) =
          some (r, Bool.xor
            (carry_at bcd subtract arg1 arg2 low (Bool.xor carry_in subtract) (high + 1 - low))
            subtract) ∧
      r < 2 ^ 64 ∧
      (∀ k, low + k ≤ high →
        slot r (low + k) = nibble_at bcd subtract arg1 arg2 low (Bool.xor carry_in subtract) k) ∧
      ∀ j, j ≤ 15 → (j < low ∨ high < j) → slot r j = slot arg1 j := by
  obtain ⟨r, hr, hrlt, _, hrin, hrout⟩ :=
    add_sub_loop_spec bcd subtract arg1 arg2 (high + 1 - low) low arg1
      (Bool.xor carry_in subtract) (by omega)
  have h : ((low : Int) + ((high + 1 - low : Nat) : Int) - 1) = (high : Int) := by omega
  rw [h] at hr
  refine ⟨r, ?_, hrlt (by omega), ?_, ?_⟩
  · simp only [add_sub, hr]
  · intro k hk
    exact hrin k (by omega)
  · intro j hj hout
    exact hrout j hj (by omega)

/-! ## One digit position -/

set_option maxRecDepth 100000 in
/-- Adding two digits of the mode's base with a carry: the stored nibble is a digit of that
base, and with the carry left it makes up the sum. -/
theorem digit_op_add_all : ∀ bcd : Bool, ∀ d1, d1 < 16 → ∀ d2, d2 < 16 → ∀ c : Bool,
    d1 < radix bcd → d2 < radix bcd →
      (digit_op bcd false d1 d2 c).1 + radix bcd * (digit_op bcd false d1 d2 c).2.toNat =
          d1 + d2 + c.toNat ∧
        (digit_op bcd false d1 d2 c).1 < radix bcd := by
  decide

set_option maxRecDepth 100000 in
/-- Subtracting two digits of the mode's base: the loop's carry is the complement of a borrow;
the stored nibble is a digit of that base, and with the borrow left it makes up the
difference. -/
theorem digit_op_sub_all : ∀ bcd : Bool, ∀ d1, d1 < 16 → ∀ d2, d2 < 16 → ∀ c : Bool,
    d1 < radix bcd → d2 < radix bcd →
      (digit_op bcd true d1 d2 c).1 + d2 + (!c).toNat =
          d1 + radix bcd * (!(digit_op bcd true d1 d2 c).2).toNat ∧
        (digit_op bcd true d1 d2 c).1 < radix bcd := by
  decide

/-! ## The value of the range -/

/-- Addition over the first `k` slots of the range, in the mode's base: the digits written and
the carry left make up the sum of the two fields and the carry the loop started with. -/
theorem field_value_add (bcd : Bool) (arg1 arg2 low : Nat) (carry : Bool) (r k : Nat)
    (h1 : ∀ j, j < k → slot arg1 (low + j) < radix bcd)
    (h2 : ∀ j, j < k → slot arg2 (low + j) < radix bcd)
    (hr : ∀ j, j < k → slot r (low + j) = nibble_at bcd false arg1 arg2 low carry j) :
    field_value (radix bcd) r low k +
          radix bcd ^ k * (carry_at bcd false arg1 arg2 low carry k).toNat =
        field_value (radix bcd) arg1 low k + field_value (radix bcd) arg2 low k + carry.toNat ∧
      field_value (radix bcd) r low k < radix bcd ^ k := by
  induction k with
  | zero => simp [field_value, carry_at]
  | succ k ih =>
    obtain ⟨ihv, ihlt⟩ := ih (fun j hj => h1 j (by omega)) (fun j hj => h2 j (by omega))
      (fun j hj => hr j (by omega))
    obtain ⟨hd, hdlt⟩ := digit_op_add_all bcd (slot arg1 (low + k)) (slot_lt _ _)
      (slot arg2 (low + k)) (slot_lt _ _) (carry_at bcd false arg1 arg2 low carry k)
      (h1 k (by omega)) (h2 k (by omega))
    have hrk := hr k (by omega)
    rw [nibble_at] at hrk
    rw [← hrk] at hd hdlt
    simp only [field_value, carry_at, pow_succ]
    have hm := congrArg (fun t => radix bcd ^ k * t) hd
    simp only [mul_add] at hm
    have hb : radix bcd ^ k * (slot r (low + k) + 1) ≤ radix bcd ^ k * radix bcd :=
      Nat.mul_le_mul_left _ hdlt
    rw [mul_add, mul_one] at hb
    constructor
    · rw [mul_assoc]; linarith
    · linarith

/-- Subtraction over the first `k` slots of the range, in the mode's base. The loop's carry is
the complement of a borrow: the digits written, the subtrahend and the borrow the loop started
with make up the minuend and the borrow left. -/
theorem field_value_sub (bcd : Bool) (arg1 arg2 low : Nat) (carry : Bool) (r k : Nat)
    (h1 : ∀ j, j < k → slot arg1 (low + j) < radix bcd)
    (h2 : ∀ j, j < k → slot arg2 (low + j) < radix bcd)
    (hr : ∀ j, j < k → slot r (low + j) = nibble_at bcd true arg1 arg2 low carry j) :
    field_value (radix bcd) r low k + field_value (radix bcd) arg2 low k + (!carry).toNat =
        field_value (radix bcd) arg1 low k +
          radix bcd ^ k * (!(carry_at bcd true arg1 arg2 low carry k)).toNat ∧
      field_value (radix bcd) r low k < radix bcd ^ k := by
  induction k with
  | zero => simp [field_value, carry_at]
  | succ k ih =>
    obtain ⟨ihv, ihlt⟩ := ih (fun j hj => h1 j (by omega)) (fun j hj => h2 j (by omega))
      (fun j hj => hr j (by omega))
    obtain ⟨hd, hdlt⟩ := digit_op_sub_all bcd (slot arg1 (low + k)) (slot_lt _ _)
      (slot arg2 (low + k)) (slot_lt _ _) (carry_at bcd true arg1 arg2 low carry k)
      (h1 k (by omega)) (h2 k (by omega))
    have hrk := hr k (by omega)
    rw [nibble_at] at hrk
    rw [← hrk] at hd hdlt
    simp only [field_value, carry_at, pow_succ]
    have hm := congrArg (fun t => radix bcd ^ k * t) hd
    simp only [mul_add] at hm
    have hb : radix bcd ^ k * (slot r (low + k) + 1) ≤ radix bcd ^ k * radix bcd :=
      Nat.mul_le_mul_left _ hdlt
    rw [mul_add, mul_one] at hb
    constructor
    · rw [mul_assoc]; linarith
    · linarith

theorem well_formed_hex (x low high : Nat) : well_formed false x low high :=
  fun i _ _ => slot_lt x i

theorem well_formed_bcd {x low high : Nat} (h : ∀ i, low ≤ i → i ≤ high → slot x i ≤ 9) :
    well_formed true x low high :=
  fun i h1 h2 => Nat.lt_succ_of_le (h i h1 h2)

/-- Addition by `add_sub` on operands whose digits in the range are digits of the mode's base:
it returns a word and a carry that together make up the sum of the two fields and the
carry-in. -/
theorem add_sub_add_value (bcd : Bool) (arg1 arg2 : Nat) (carry_in : Bool) (low high : Nat)
    (hlh : low ≤ high) (hh : high ≤ 15)
    (h1 : well_formed bcd arg1 low high) (h2 : well_formed bcd arg2 low high) :
    ∃ r c, add_sub bcd false arg1 arg2 carry_in (low : Int) (high : Int) = some (r, c) ∧
      r < 2 ^ 64 ∧
      (∀ j, j ≤ 15 → (j < low ∨ high < j) → slot r j = slot arg1 j) ∧
      field_value (radix bcd) r low (high - low + 1) + radix bcd ^ (high - low + 1) * c.toNat =
        field_value (radix bcd) arg1 low (high - low + 1) +
          field_value (radix bcd) arg2 low (high - low + 1) + carry_in.toNat ∧
      field_value (radix bcd) r low (high - low + 1) < radix bcd ^ (high - low + 1) := by
  obtain ⟨r, hr, hrlt, hrin, hrout⟩ :=
    add_sub_spec bcd false arg1 arg2 carry_in low high hlh hh
  have hw : high + 1 - low = high - low + 1 := by omega
  rw [Bool.xor_false, Bool.xor_false, hw] at hr
  rw [Bool.xor_false] at hrin
  obtain ⟨hv, hlt⟩ := field_value_add bcd arg1 arg2 low carry_in r (high - low + 1)
    (fun j hj => h1 _ (by omega) (by omega)) (fun j hj => h2 _ (by omega) (by omega))
    (fun j hj => hrin j (by omega))
  exact ⟨r, _, hr, hrlt, hrout, hv, hlt⟩

/-- Subtraction by `add_sub` on operands whose digits in the range are digits of the mode's
base: it returns a word and a borrow; the word's field, the subtrahend's field and the
borrow-in make up the minuend's field and the borrow-out. -/
theorem add_sub_sub_value (bcd : Bool) (arg1 arg2 : Nat) (carry_in : Bool) (low high : Nat)
    (hlh : low ≤ high) (hh : high ≤ 15)
    (h1 : well_formed bcd arg1 low high) (h2 : well_formed bcd arg2 low high) :
    ∃ r c, add_sub bcd true arg1 arg2 carry_in (low : Int) (high : Int) = some (r, c) ∧
      r < 2 ^ 64 ∧
      (∀ j, j ≤ 15 → (j < low ∨ high < j) → slot r j = slot arg1 j) ∧
      field_value (radix bcd) r low (high - low + 1) +
          field_value (radix bcd) arg2 low (high - low + 1) + carry_in.toNat =
        field_value (radix bcd) arg1 low (high - low + 1) +
          radix bcd ^ (high - low + 1) * c.toNat ∧
      field_value (radix bcd) r low (high - low + 1) < radix bcd ^ (high - low + 1) := by
  obtain ⟨r, hr, hrlt, hrin, hrout⟩ :=
    add_sub_spec bcd true arg1 arg2 carry_in low high hlh hh
  have hw : high + 1 - low = high - low + 1 := by omega
  rw [Bool.xor_true, Bool.xor_true, hw] at hr
  rw [Bool.xor_true] at hrin
  obtain ⟨hv, hlt⟩ := field_value_sub bcd arg1 arg2 low (!carry_in) r (high - low + 1)
    (fun j hj => h1 _ (by omega) (by omega)) (fun j hj => h2 _ (by omega) (by omega))
    (fun j hj => hrin j (by omega))
  rw [Bool.not_not] at hv
  exact ⟨r, _, hr, hrlt, hrout, hv, hlt⟩

/-- From "digits and carry make up the sum" to "digits are the sum modulo the capacity and
the carry says whether the sum reached the capacity". -/
theorem sum_mod_carry {R P S : Nat} {c : Bool} (h : R + P * c.toNat = S) (hlt : R < P) :
    R = S % P ∧ (c = true ↔ S ≥ P) := by
  cases c with
  | false =>
    simp only [Bool.toNat_false, Nat.mul_zero, Nat.add_zero] at h
    subst h
    refine ⟨(Nat.mod_eq_of_lt hlt).symm, ?_⟩
    constructor
    · intro hc; cases hc
    · intro hge; omega
  | true =>
    simp only [Bool.toNat_true, Nat.mul_one] at h
    subst h
    refine ⟨?_, ?_⟩
    · rw [Nat.add_mod_right, Nat.mod_eq_of_lt hlt]
    · constructor
      · intro _; omega
      · intro _; rfl

/-- From "digits, subtrahend and borrow-in make up minuend and borrow-out" to "digits are the
difference modulo the capacity and the borrow says whether the difference is negative". -/
theorem diff_mod_borrow {R P A B : Nat} {cin c : Bool}
    (h : R + B + cin.toNat = A + P * c.toNat) (hlt : R < P) :
    (R : Int) = ((A : Int) - (B : Int) - (cin.toNat : Int)) % (P : Int) ∧
      (c = true ↔ A < B + cin.toNat) := by
  cases c with
  | false =>
    simp only [Bool.toNat_false, Nat.mul_zero, Nat.add_zero] at h
    have e : (A : Int) - (B : Int) - (cin.toNat : Int) = (R : Int) := by omega
    rw [e]
    refine ⟨(Int.emod_eq_of_lt (by omega) (by omega)).symm, ?_⟩
    constructor
    · intro hc; cases hc
    · intro hge; omega
  | true =>
    simp only [Bool.toNat_true, Nat.mul_one] at h
    have e : (A : Int) - (B : Int) - (cin.toNat : Int) = (R : Int) + (P : Int) * (-1) := by omega
    rw [e, Int.add_mul_emod_self_left]
    refine ⟨(Int.emod_eq_of_lt (by omega) (by omega)).symm, ?_⟩
    constructor
    · intro _; omega
    · intro _; rfl

/-! ## Evaluation of the loop, closure, and the inverse -/

/-- The loop runs its body `high_digit_idx + 1 - digit_idx` times (not at all when that is not
positive). -/
theorem add_sub_loop_eq_passes (bcd subtract : Bool) (arg1 arg2 : Nat) (high_digit_idx : Int)
    (n : Nat) : ∀ (digit_idx : Int) (result : Nat) (carry : Bool),
      (high_digit_idx + 1 - digit_idx).toNat = n →
      add_sub_loop bcd subtract arg1 arg2 high_digit_idx digit_idx result carry =
        add_sub_passes bcd subtract arg1 arg2 n digit_idx result carry := by
  induction n with
  | zero =>
    intro digit_idx result carry hn
    rw [add_sub_loop, if_neg (by omega), add_sub_passes]
  | succ n ih =>
    intro digit_idx result carry hn
    rw [add_sub_loop, if_pos (by omega), add_sub_passes]
    cases add_sub_iter bcd subtract arg1 arg2 digit_idx result carry with
    | none => rfl
    | some st => exact ih (digit_idx + 1) st.1 st.2 (by omega)

theorem eq_of_slots {x y : Nat} (hx : x < 2 ^ 64) (hy : y < 2 ^ 64)
    (h : ∀ j, j ≤ 15 → slot x j = slot y j) : x = y := by
  apply Nat.eq_of_testBit_eq
  intro n
  by_cases hn : n < 64
  · have hs := congrArg (fun t => Nat.testBit t (n % 4)) (h (n / 4) (by omega))
    simp only [testBit_slot] at hs
    have h4 : n % 4 < 4 := Nat.mod_lt _ (by norm_num)
    have hdm : 4 * (n / 4) + n % 4 = n := Nat.div_add_mod n 4
    simpa [h4, hdm] using hs
  · have hp : (2 : Nat) ^ 64 ≤ 2 ^ n := Nat.pow_le_pow_right (by norm_num) (by omega)
    rw [Nat.testBit_lt_two_pow (Nat.lt_of_lt_of_le hx hp),
      Nat.testBit_lt_two_pow (Nat.lt_of_lt_of_le hy hp)]

/-- Closure: on operands whose digits in the range are digits of the mode's base, so are the
digits of the result in the range. -/
theorem add_sub_closed (bcd subtract : Bool) (arg1 arg2 : Nat) (carry_in : Bool)
    (low high : Nat) (hlh : low ≤ high) (hh : high ≤ 15)
    (h1 : well_formed bcd arg1 low high) (h2 : well_formed bcd arg2 low high)
    (r : Nat) (c : Bool)
    (hr : add_sub bcd subtract arg1 arg2 carry_in (low : Int) (high : Int) = some (r, c)) :
    well_formed bcd r low high := by
  obtain ⟨r0, hr0, _, hrin, _⟩ := add_sub_spec bcd subtract arg1 arg2 carry_in low high hlh hh
  rw [hr0] at hr
  have hrr : r0 = r := congrArg Prod.fst (Option.some.inj hr)
  subst hrr
  intro i hi1 hi2
  have hk := hrin (i - low) (by omega)
  have hi : low + (i - low) = i := by omega
  rw [hi] at hk
  rw [hk, nibble_at, hi]
  cases subtract with
  | false =>
    exact (digit_op_add_all bcd _ (slot_lt _ _) _ (slot_lt _ _) _
      (h1 i hi1 hi2) (h2 i hi1 hi2)).2
  | true =>
    exact (digit_op_sub_all bcd _ (slot_lt _ _) _ (slot_lt _ _) _
      (h1 i hi1 hi2) (h2 i hi1 hi2)).2

set_option maxRecDepth 100000 in
/-- Subtracting, with borrow `f`, the digit that was added with carry `f` gives the first
digit back, and borrows exactly when the addition carried. -/
theorem digit_op_inverse_all : ∀ bcd : Bool, ∀ d1, d1 < 16 → ∀ d2, d2 < 16 → ∀ f : Bool,
    d1 < radix bcd → d2 < radix bcd →
      digit_op bcd true (digit_op bcd false d1 d2 f).1 d2 (!f) =
        (d1, !(digit_op bcd false d1 d2 f).2) := by
  decide

/-- The subtraction loop run on the sum undoes the addition loop slot by slot. -/
theorem inverse_chain (bcd : Bool) (arg1 arg2 s low : Nat) (f : Bool) (k : Nat)
    (h1 : ∀ j, j < k → slot arg1 (low + j) < radix bcd)
    (h2 : ∀ j, j < k → slot arg2 (low + j) < radix bcd)
    (hs : ∀ j, j < k → slot s (low + j) = nibble_at bcd false arg1 arg2 low f j) :
    carry_at bcd true s arg2 low (!f) k = (!(carry_at bcd false arg1 arg2 low f k)) ∧
      ∀ j, j < k → nibble_at bcd true s arg2 low (!f) j = slot arg1 (low + j) := by
  induction k with
  | zero =>
    refine ⟨rfl, ?_⟩
    intro j hj
    omega
  | succ k ih =>
    obtain ⟨ihc, ihn⟩ := ih (fun j hj => h1 j (by omega)) (fun j hj => h2 j (by omega))
      (fun j hj => hs j (by omega))
    have hd := digit_op_inverse_all bcd (slot arg1 (low + k)) (slot_lt _ _)
      (slot arg2 (low + k)) (slot_lt _ _) (carry_at bcd false arg1 arg2 low f k)
      (h1 k (by omega)) (h2 k (by omega))
    have hsk := hs k (by omega)
    rw [nibble_at] at hsk
    rw [← hsk, ← ihc] at hd
    constructor
    · rw [carry_at, hd, carry_at]
    · intro j hj
      rcases Nat.lt_or_ge j k with hlt | hge
      · exact ihn j hlt
      · have hjk : j = k := by omega
        subst hjk
        rw [nibble_at, hd]

/-- Adding and then subtracting the same operand over the same range, both without carry-in,
on operands whose digits in the range are digits of the mode's base: both calls return, the
second returns every slot of the first operand, and it borrows out exactly when the first
carried out. -/
theorem add_sub_inverse (bcd : Bool) (arg1 arg2 : Nat) (low high : Nat)
    (hlh : low ≤ high) (hh : high ≤ 15)
    (h1 : well_formed bcd arg1 low high) (h2 : well_formed bcd arg2 low high) :
    ∃ s c r, add_sub bcd false arg1 arg2 false (low : Int) (high : Int) = some (s, c) ∧
      add_sub bcd true s arg2 false (low : Int) (high : Int) = some (r, c) ∧
      r < 2 ^ 64 ∧ ∀ j, j ≤ 15 → slot r j = slot arg1 j := by
  obtain ⟨s, hs, _, hsin, hsout⟩ := add_sub_spec bcd false arg1 arg2 false low high hlh hh
  obtain ⟨r, hr, hrlt, hrin, hrout⟩ := add_sub_spec bcd true s arg2 false low high hlh hh
  simp only [Bool.xor_false, Bool.xor_true, Bool.false_xor, Bool.not_false] at hs hsin hr hrin
  obtain ⟨hc, hn⟩ := inverse_chain bcd arg1 arg2 s low false (high + 1 - low)
    (fun j hj => h1 _ (by omega) (by omega)) (fun j hj => h2 _ (by omega) (by omega))
    (fun j hj => hsin j (by omega))
  simp only [Bool.not_false] at hc hn
  rw [hc, Bool.not_not] at hr
  refine ⟨s, _, r, hs, hr, hrlt, ?_⟩
  intro j hj
  by_cases hin : low ≤ j ∧ j ≤ high
  · have hk := hrin (j - low) (by omega)
    rw [hn (j - low) (by omega)] at hk
    have hi : low + (j - low) = j := by omega
    rw [hi] at hk
    exact hk
  · rw [hrout j hj (by omega), hsout j hj (by omega)]

theorem well_formed_of_mode {bcd : Bool} {x low high : Nat}
    (h : bcd = true → ∀ i, low ≤ i → i ≤ high → slot x i ≤ 9) : well_formed bcd x low high := by
  cases bcd with
  | false => exact well_formed_hex x low high
  | true => exact well_formed_bcd (h rfl)

theorem slot_zero (i : Nat) : slot 0 i = 0 := by simp [slot]

theorem field_value_zero (base low w : Nat) : field_value base 0 low w = 0 := by
  induction w with
  | zero => rfl
  | succ w ih => simp [field_value, ih, slot_zero]

/-- Decimal addition of `zero` with a forced carry-in over a range whose slots hold 0-9: the
field is incremented modulo its capacity, stays decimal, and the other slots are kept. -/
theorem add_sub_increment (arg low high : Nat) (hlh : low ≤ high) (hh : high ≤ 15)
    (h : ∀ i, low ≤ i → i ≤ high → slot arg i ≤ 9) :
    ∃ r c, add_sub true false arg zero true (low : Int) (high : Int) = some (r, c) ∧
      r < 2 ^ 64 ∧
      field_value 10 r low (high - low + 1) =
        (field_value 10 arg low (high - low + 1) + 1) % 10 ^ (high - low + 1) ∧
      (∀ i, low ≤ i → i ≤ high → slot r i ≤ 9) ∧
      ∀ j, j ≤ 15 → (j < low ∨ high < j) → slot r j = slot arg j := by
  have hz : well_formed true zero low high := by
    intro i _ _
    rw [zero, slot_zero]
    decide
  obtain ⟨r, c, hr, hrlt, hrout, hv, hlt⟩ :=
    add_sub_add_value true arg zero true low high hlh hh (well_formed_bcd h) hz
  have hcl := add_sub_closed true false arg zero true low high hlh hh (well_formed_bcd h) hz r c hr
  have h10 : radix true = 10 := rfl
  have hzero : field_value 10 zero low (high - low + 1) = 0 := field_value_zero _ _ _
  rw [h10] at hv hlt
  rw [hzero, Nat.add_zero, Bool.toNat_true] at hv
  refine ⟨r, c, hr, hrlt, (sum_mod_carry hv hlt).1, ?_, hrout⟩
  intro i hi1 hi2
  have := hcl i hi1 hi2
  rw [h10] at this
  omega

/-! ## Range isolation and the four correctness statements -/

/-- C1 (range isolation): for every mode, direction, operands, carry-in and range
`0 ≤ low ≤ high ≤ 15`, `add_sub` returns, and every slot of its result word whose index is
below `low` or above `high` equals the same slot of `operand_a`. -/
theorem add_sub_range_isolation (bcd subtract : Bool) (a b : Nat) (carry_in : Bool)
    (low high : Nat) (hlh : low ≤ high) (hh : high ≤ 15) :
    ∃ r c, add_sub bcd subtract a b carry_in (low : Int) (high : Int) = some (r, c) ∧
      ∀ j, j ≤ 15 → (j < low ∨ high < j) → slot r j = slot a j := by
  obtain ⟨r, hr, _, _, hrout⟩ := add_sub_spec bcd subtract a b carry_in low high hlh hh
  exact ⟨r, _, hr, hrout⟩

/-- Witness of C1 at the last row of the test table, over the range 3..12. -/
theorem add_sub_range_isolation_witness :
    (3 ≤ 12 ∧ 12 ≤ 15) ∧
    ∃ r c, add_sub true false 0xf006a0000000ab 0 true ((3 : Nat) : Int) ((12 : Nat) : Int) =
        some (r, c) ∧
      ∀ j, j ≤ 15 → (j < 3 ∨ 12 < j) → slot r j = slot 0xf006a0000000ab j :=
  ⟨by decide, add_sub_range_isolation true false 0xf006a0000000ab 0 true 3 12
    (by decide) (by decide)⟩

/-- C4 (hexadecimal addition): for every range `0 ≤ low ≤ high ≤ 15` of width `w`, every
carry-in and all operands, hexadecimal addition returns a word whose slots `low..high`, read
as a `w`-digit base-16 number, are `(value a + value b + carry_in) mod 16 ^ w`, and the
carry-out is true exactly when `value a + value b + carry_in ≥ 16 ^ w`. -/
theorem add_sub_hex_add_correct (a b : Nat) (carry_in : Bool) (low high : Nat)
    (hlh : low ≤ high) (hh : high ≤ 15) :
    ∃ r c, add_sub false false a b carry_in (low : Int) (high : Int) = some (r, c) ∧
      field_value 16 r low (high - low + 1) =
        (field_value 16 a low (high - low + 1) + field_value 16 b low (high - low + 1) +
          carry_in.toNat) % 16 ^ (high - low + 1) ∧
      (c = true ↔
        field_value 16 a low (high - low + 1) + field_value 16 b low (high - low + 1) +
          carry_in.toNat ≥ 16 ^ (high - low + 1)) := by
  obtain ⟨r, c, hr, _, _, hv, hlt⟩ := add_sub_add_value false a b carry_in low high hlh hh
    (well_formed_hex a low high) (well_formed_hex b low high)
  have h16 : radix false = 16 := rfl
  rw [h16] at hv hlt
  obtain ⟨h1, h2⟩ := sum_mod_carry hv hlt
  exact ⟨r, c, hr, h1, h2⟩

/-- Witness of C4: 0xfa + 0x0b over the slots 0..1. -/
theorem add_sub_hex_add_correct_witness :
    (0 ≤ 1 ∧ 1 ≤ 15) ∧
    ∃ r c, add_sub false false 0xfa 0x0b false ((0 : Nat) : Int) ((1 : Nat) : Int) =
        some (r, c) ∧
      field_value 16 r 0 (1 - 0 + 1) =
        (field_value 16 0xfa 0 (1 - 0 + 1) + field_value 16 0x0b 0 (1 - 0 + 1) +
          false.toNat) % 16 ^ (1 - 0 + 1) ∧
      (c = true ↔
        field_value 16 0xfa 0 (1 - 0 + 1) + field_value 16 0x0b 0 (1 - 0 + 1) +
          false.toNat ≥ 16 ^ (1 - 0 + 1)) :=
  ⟨by decide, add_sub_hex_add_correct 0xfa 0x0b false 0 1 (by decide) (by decide)⟩

/-- C5 (hexadecimal subtraction): for every range `0 ≤ low ≤ high ≤ 15` of width `w`, every
borrow-in and all operands, hexadecimal subtraction returns a word whose slots `low..high`,
read as a `w`-digit base-16 number, are the non-negative residue of
`value a - value b - borrow_in` modulo `16 ^ w`, and the borrow-out is true exactly when
`value a < value b + borrow_in`. -/
theorem add_sub_hex_sub_correct (a b : Nat) (borrow_in : Bool) (low high : Nat)
    (hlh : low ≤ high) (hh : high ≤ 15) :
    ∃ r c, add_sub false true a b borrow_in (low : Int) (high : Int) = some (r, c) ∧
      (field_value 16 r low (high - low + 1) : Int) =
        ((field_value 16 a low (high - low + 1) : Int) -
          (field_value 16 b low (high - low + 1) : Int) - (borrow_in.toNat : Int)) %
            ((16 ^ (high - low + 1) : Nat) : Int) ∧
      (c = true ↔
        field_value 16 a low (high - low + 1) <
          field_value 16 b low (high - low + 1) + borrow_in.toNat) := by
  obtain ⟨r, c, hr, _, _, hv, hlt⟩ := add_sub_sub_value false a b borrow_in low high hlh hh
    (well_formed_hex a low high) (well_formed_hex b low high)
  have h16 : radix false = 16 := rfl
  rw [h16] at hv hlt
  obtain ⟨h1, h2⟩ := diff_mod_borrow hv hlt
  exact ⟨r, c, hr, h1, h2⟩

/-- Witness of C5: 0x10 - 0x01 with borrow-in over the slots 0..1. -/
theorem add_sub_hex_sub_correct_witness :
    (0 ≤ 1 ∧ 1 ≤ 15) ∧
    ∃ r c, add_sub false true 0x10 0x01 true ((0 : Nat) : Int) ((1 : Nat) : Int) =
        some (r, c) ∧
      (field_value 16 r 0 (1 - 0 + 1) : Int) =
        ((field_value 16 0x10 0 (1 - 0 + 1) : Int) -
          (field_value 16 0x01 0 (1 - 0 + 1) : Int) - (true.toNat : Int)) %
            ((16 ^ (1 - 0 + 1) : Nat) : Int) ∧
      (c = true ↔
        field_value 16 0x10 0 (1 - 0 + 1) <
          field_value 16 0x01 0 (1 - 0 + 1) + true.toNat) :=
  ⟨by decide, add_sub_hex_sub_correct 0x10 0x01 true 0 1 (by decide) (by decide)⟩

/-! ## The inverse when only the first operand is decimal -/

set_option maxRecDepth 100000 in
/-- Subtracting, with borrow `f`, the digit that was added with carry `f` gives the first
digit back and borrows exactly when the addition carried, as soon as the first digit is a
digit of the mode's base: the second digit may be any nibble. -/
theorem digit_op_inverse_left_all : ∀ bcd : Bool, ∀ d1, d1 < 16 → ∀ d2, d2 < 16 → ∀ f : Bool,
    d1 < radix bcd →
      digit_op bcd true (digit_op bcd false d1 d2 f).1 d2 (!f) =
        (d1, !(digit_op bcd false d1 d2 f).2) := by
  decide

/-- The subtraction loop run on the sum undoes the addition loop slot by slot, for any nibbles
in the second operand. -/
theorem inverse_chain_left (bcd : Bool) (arg1 arg2 s low : Nat) (f : Bool) (k : Nat)
    (h1 : ∀ j, j < k → slot arg1 (low + j) < radix bcd)
    (hs : ∀ j, j < k → slot s (low + j) = nibble_at bcd false arg1 arg2 low f j) :
    carry_at bcd true s arg2 low (!f) k = (!(carry_at bcd false arg1 arg2 low f k)) ∧
      ∀ j, j < k → nibble_at bcd true s arg2 low (!f) j = slot arg1 (low + j) := by
  induction k with
  | zero =>
    refine ⟨rfl, ?_⟩
    intro j hj
    omega
  | succ k ih =>
    obtain ⟨ihc, ihn⟩ := ih (fun j hj => h1 j (by omega)) (fun j hj => hs j (by omega))
    have hd := digit_op_inverse_left_all bcd (slot arg1 (low + k)) (slot_lt _ _)
      (slot arg2 (low + k)) (slot_lt _ _) (carry_at bcd false arg1 arg2 low f k)
      (h1 k (by omega))
    have hsk := hs k (by omega)
    rw [nibble_at] at hsk
    rw [← hsk, ← ihc] at hd
    constructor
    · rw [carry_at, hd, carry_at]
    · intro j hj
      rcases Nat.lt_or_ge j k with hlt | hge
      · exact ihn j hlt
      · have hjk : j = k := by omega
        subst hjk
        rw [nibble_at, hd]

/-- Adding and then subtracting the same operand over the same range, both without carry-in,
when the digits of the first operand in the range are digits of the mode's base: both calls
return, the second returns every slot of the first operand, and it borrows out exactly when
the first carried out. The second operand is arbitrary. -/
theorem add_sub_inverse_left (bcd : Bool) (arg1 arg2 : Nat) (low high : Nat)
    (hlh : low ≤ high) (hh : high ≤ 15) (h1 : well_formed bcd arg1 low high) :
    ∃ s c r, add_sub bcd false arg1 arg2 false (low : Int) (high : Int) = some (s, c) ∧
      add_sub bcd true s arg2 false (low : Int) (high : Int) = some (r, c) ∧
      r < 2 ^ 64 ∧ ∀ j, j ≤ 15 → slot r j = slot arg1 j := by
  obtain ⟨s, hs, _, hsin, hsout⟩ := add_sub_spec bcd false arg1 arg2 false low high hlh hh
  obtain ⟨r, hr, hrlt, hrin, hrout⟩ := add_sub_spec bcd true s arg2 false low high hlh hh
  simp only [Bool.xor_false, Bool.xor_true, Bool.false_xor, Bool.not_false] at hs hsin hr hrin
  obtain ⟨hc, hn⟩ := inverse_chain_left bcd arg1 arg2 s low false (high + 1 - low)
    (fun j hj => h1 _ (by omega) (by omega)) (fun j hj => hsin j (by omega))
  simp only [Bool.not_false] at hc hn
  rw [hc, Bool.not_not] at hr
  refine ⟨s, _, r, hs, hr, hrlt, ?_⟩
  intro j hj
  by_cases hin : low ≤ j ∧ j ≤ high
  · have hk := hrin (j - low) (by omega)
    rw [hn (j - low) (by omega)] at hk
    have hi : low + (j - low) = j := by omega
    rw [hi] at hk
    exact hk
  · rw [hrout j hj (by omega), hsout j hj (by omega)]

/-! ## Additive inverse -/

/-- C6, counterexample: in decimal mode, with the nibble `0xA` in slot 0 of `a`, `b = 0` and the
range 0..0, the addition returns `0` (with carry), and subtracting `b` from that returns `0`,
whose slot 0 is not the slot 0 of `a`. -/
theorem add_sub_inverse_any_nibble_counterexample :
    add_sub true false 0xA 0 false 0 0 = some (0, true) ∧
      add_sub true true 0 0 false 0 0 = some (0, false) ∧
      slot 0 0 ≠ slot 0xA 0 := by
  refine ⟨?_, ?_, by decide⟩
  · rw [add_sub, add_sub_loop_eq_passes _ _ _ _ _ _ _ _ _ rfl]
    rfl
  · rw [add_sub, add_sub_loop_eq_passes _ _ _ _ _ _ _ _ _ rfl]
    rfl

/-- C6, amended (additive inverse): for every mode, every `a` and `b` (any nibbles in `b`) and
every range `0 ≤ low ≤ high ≤ 15` such that, in decimal mode, all slots `low..high` of `a` hold
0-9: the addition of `a` and `b` without carry-in returns some `s`, and subtracting `b` from `s`
without borrow-in over the same range returns a word with the same slots `low..high` as `a`. -/
theorem add_sub_inverse_in_range (bcd : Bool) (a b : Nat) (low high : Nat)
    (hlh : low ≤ high) (hh : high ≤ 15)
    (ha : bcd = true → ∀ i, low ≤ i → i ≤ high → slot a i ≤ 9) :
    ∃ s c r c2, add_sub bcd false a b false (low : Int) (high : Int) = some (s, c) ∧
      add_sub bcd true s b false (low : Int) (high : Int) = some (r, c2) ∧
      ∀ i, low ≤ i → i ≤ high → slot r i = slot a i := by
  obtain ⟨s, c, r, hs, hr, _, hslots⟩ := add_sub_inverse_left bcd a b low high hlh hh
    (well_formed_of_mode ha)
  exact ⟨s, c, r, c, hs, hr, fun i _ hi => hslots i (by omega)⟩

/-- Witness of C6 as amended: 95 plus the nibbles F7 and back, in decimal mode over the slots
0..1. -/
theorem add_sub_inverse_in_range_witness :
    (0 ≤ 1 ∧ 1 ≤ 15 ∧ (true = true → ∀ i, 0 ≤ i → i ≤ 1 → slot 0x95 i ≤ 9)) ∧
    ∃ s c r c2, add_sub true false 0x95 0xF7 false ((0 : Nat) : Int) ((1 : Nat) : Int) =
        some (s, c) ∧
      add_sub true true s 0xF7 false ((0 : Nat) : Int) ((1 : Nat) : Int) = some (r, c2) ∧
      ∀ i, 0 ≤ i → i ≤ 1 → slot r i = slot 0x95 i :=
  ⟨⟨by decide, by decide, fun _ => by intro i _ h; interval_cases i <;> decide⟩,
    add_sub_inverse_in_range true 0x95 0xF7 0 1 (by decide) (by decide)
      (fun _ => by intro i _ h; interval_cases i <;> decide)⟩

/-- C7 (additive inverse on well-formed operands): for every range `0 ≤ low ≤ high ≤ 15` and
all 64-bit `a` and `b` such that the mode is hexadecimal, or the mode is decimal and all slots
`low..high` of `a` and of `b` hold 0-9: if the addition without carry-in returns `(s, c)`, then
subtracting `b` from `s` without borrow-in over the same range returns exactly the word `a`,
with borrow-out `c`. -/
theorem add_sub_inverse_whole_word (bcd : Bool) (a b : Nat) (low high : Nat)
    (hlh : low ≤ high) (hh : high ≤ 15) (ha64 : a < 2 ^ 64)
    (hab : bcd = false ∨ (bcd = true ∧
      (∀ i, low ≤ i → i ≤ high → slot a i ≤ 9) ∧ (∀ i, low ≤ i → i ≤ high → slot b i ≤ 9))) :
    ∃ s c, add_sub bcd false a b false (low : Int) (high : Int) = some (s, c) ∧
      add_sub bcd true s b false (low : Int) (high : Int) = some (a, c) := by
  have h1 : well_formed bcd a low high := by
    rcases hab with h | ⟨_, h, _⟩
    · subst h; exact well_formed_hex a low high
    · exact well_formed_of_mode (fun _ => h)
  have h2 : well_formed bcd b low high := by
    rcases hab with h | ⟨_, _, h⟩
    · subst h; exact well_formed_hex b low high
    · exact well_formed_of_mode (fun _ => h)
  obtain ⟨s, c, r, hs, hr, hrlt, hslots⟩ := add_sub_inverse bcd a b low high hlh hh h1 h2
  have hra : r = a := eq_of_slots hrlt ha64 hslots
  rw [hra] at hr
  exact ⟨s, c, hs, hr⟩

/-- Witness of C7: 0xf006900000999fab plus 0x1000 and back, in decimal mode over the
slots 3..12. -/
theorem add_sub_inverse_whole_word_witness :
    (3 ≤ 12 ∧ 12 ≤ 15 ∧ 0xf006900000999fab < 2 ^ 64 ∧
      (true = false ∨ (true = true ∧
        (∀ i, 3 ≤ i → i ≤ 12 → slot 0xf006900000999fab i ≤ 9) ∧
        (∀ i, 3 ≤ i → i ≤ 12 → slot 0x1000 i ≤ 9)))) ∧
    ∃ s c, add_sub true false 0xf006900000999fab 0x1000 false ((3 : Nat) : Int)
          ((12 : Nat) : Int) = some (s, c) ∧
      add_sub true true s 0x1000 false ((3 : Nat) : Int) ((12 : Nat) : Int) =
        some (0xf006900000999fab, c) :=
  ⟨⟨by decide, by decide, by decide, Or.inr ⟨rfl,
      by intro i h1 h2; interval_cases i <;> decide,
      by intro i h1 h2; interval_cases i <;> decide⟩⟩,
    add_sub_inverse_whole_word true 0xf006900000999fab 0x1000 3 12 (by decide) (by decide)
      (by decide) (Or.inr ⟨rfl, by intro i h1 h2; interval_cases i <;> decide,
        by intro i h1 h2; interval_cases i <;> decide⟩)⟩

/-! ## The two increments and the test table -/

/-- C8 (literal vectors): on each of the four rows of the test table, `add_one_bcd_m` returns
the row's `expected_result_m` and `add_one_bcd_x` returns the row's `expected_result_x`; the
count of failing rows that `main` prints is 0. -/
theorem test_table_passes :
    add_one_bcd_m 0x00000000000000 = some 0x00000000001000 ∧
    add_one_bcd_m 0x00000000009009 = some 0x00000000010009 ∧
    add_one_bcd_m 0x0000000000a00a = some 0x0000000001100a ∧
    add_one_bcd_m 0xf006a0000000ab = some 0xf00700000010ab ∧
    add_one_bcd_x 0x00000000000000 = some 0x00000000000001 ∧
    add_one_bcd_x 0x00000000009009 = some 0x00000000009010 ∧
    add_one_bcd_x 0x0000000000a00a = some 0x0000000000a011 ∧
    add_one_bcd_x 0xf006a0000000ab = some 0xf006a000000012 ∧
    (∀ test_case, test_case ∈ test_cases →
      add_one_bcd_m test_case.arg = some test_case.expected_result_m ∧
      add_one_bcd_x test_case.arg = some test_case.expected_result_x) ∧
    main_fail_count = some 0 := by
  have m1 : add_one_bcd_m 0x00000000000000 = some 0x00000000001000 := by
    rw [add_one_bcd_m, add_sub, add_sub_loop_eq_passes _ _ _ _ _ _ _ _ _ rfl]; rfl
  have m2 : add_one_bcd_m 0x00000000009009 = some 0x00000000010009 := by
    rw [add_one_bcd_m, add_sub, add_sub_loop_eq_passes _ _ _ _ _ _ _ _ _ rfl]; rfl
  have m3 : add_one_bcd_m 0x0000000000a00a = some 0x0000000001100a := by
    rw [add_one_bcd_m, add_sub, add_sub_loop_eq_passes _ _ _ _ _ _ _ _ _ rfl]; rfl
  have m4 : add_one_bcd_m 0xf006a0000000ab = some 0xf00700000010ab := by
    rw [add_one_bcd_m, add_sub, add_sub_loop_eq_passes _ _ _ _ _ _ _ _ _ rfl]; rfl
  have x1 : add_one_bcd_x 0x00000000000000 = some 0x00000000000001 := by
    rw [add_one_bcd_x, add_sub, add_sub_loop_eq_passes _ _ _ _ _ _ _ _ _ rfl]; rfl
  have x2 : add_one_bcd_x 0x00000000009009 = some 0x00000000009010 := by
    rw [add_one_bcd_x, add_sub, add_sub_loop_eq_passes _ _ _ _ _ _ _ _ _ rfl]; rfl
  have x3 : add_one_bcd_x 0x0000000000a00a = some 0x0000000000a011 := by
    rw [add_one_bcd_x, add_sub, add_sub_loop_eq_passes _ _ _ _ _ _ _ _ _ rfl]; rfl
  have x4 : add_one_bcd_x 0xf006a0000000ab = some 0xf006a000000012 := by
    rw [add_one_bcd_x, add_sub, add_sub_loop_eq_passes _ _ _ _ _ _ _ _ _ rfl]; rfl
  refine ⟨m1, m2, m3, m4, x1, x2, x3, x4, ?_, ?_⟩
  · intro test_case hmem
    simp only [test_cases, List.mem_cons, List.mem_singleton, List.not_mem_nil, or_false] at hmem
    rcases hmem with h | h | h | h <;> subst h
    · exact ⟨m1, x1⟩
    · exact ⟨m2, x2⟩
    · exact ⟨m3, x3⟩
    · exact ⟨m4, x4⟩
  · simp [main_fail_count, test_cases, main_iter, m1, m2, m3, m4, x1, x2, x3, x4]

/-- C9 (10-digit increment): for every `arg` whose slots 3..12 all hold 0-9, `add_one_bcd_m`
returns a 64-bit word whose slots 3..12, read as a 10-digit decimal number, are the decimal
value of the slots 3..12 of `arg` plus one modulo `10 ^ 10` (and again hold 0-9), and whose
slots 0..2 and 13..15 are those of `arg`. -/
theorem add_one_bcd_m_correct (arg : Nat) (h : ∀ i, 3 ≤ i → i ≤ 12 → slot arg i ≤ 9) :
    ∃ r, add_one_bcd_m arg = some r ∧ r < 2 ^ 64 ∧
      field_value 10 r 3 10 = (field_value 10 arg 3 10 + 1) % 10 ^ 10 ∧
      (∀ i, 3 ≤ i → i ≤ 12 → slot r i ≤ 9) ∧
      ∀ j, j ≤ 15 → (j < 3 ∨ 12 < j) → slot r j = slot arg j := by
  obtain ⟨r, c, hr, hrlt, hv, hcl, hout⟩ :=
    add_sub_increment arg 3 12 (by decide) (by decide) h
  have e3 : ((3 : Nat) : Int) = 3 := rfl
  have e12 : ((12 : Nat) : Int) = 12 := rfl
  rw [e3, e12] at hr
  refine ⟨r, ?_, hrlt, hv, hcl, hout⟩
  rw [add_one_bcd_m, hr]
  rfl

/-- Witness of C9: the field 9999999999 wraps to 0000000000. -/
theorem add_one_bcd_m_correct_witness :
    (∀ i, 3 ≤ i → i ≤ 12 → slot 0xf009999999999fab i ≤ 9) ∧
    ∃ r, add_one_bcd_m 0xf009999999999fab = some r ∧ r < 2 ^ 64 ∧
      field_value 10 r 3 10 = (field_value 10 0xf009999999999fab 3 10 + 1) % 10 ^ 10 ∧
      (∀ i, 3 ≤ i → i ≤ 12 → slot r i ≤ 9) ∧
      ∀ j, j ≤ 15 → (j < 3 ∨ 12 < j) → slot r j = slot 0xf009999999999fab j :=
  ⟨by intro i h1 h2; interval_cases i <;> decide,
    add_one_bcd_m_correct 0xf009999999999fab (by intro i h1 h2; interval_cases i <;> decide)⟩

/-- C10 (2-digit increment): for every `arg` whose slots 0 and 1 both hold 0-9,
`add_one_bcd_x` returns a 64-bit word whose slots 0..1, read as a 2-digit decimal number, are
the decimal value of the slots 0..1 of `arg` plus one modulo 100 (and again hold 0-9), and
whose slots 2..15 are those of `arg`. -/
theorem add_one_bcd_x_correct (arg : Nat) (h : ∀ i, i ≤ 1 → slot arg i ≤ 9) :
    ∃ r, add_one_bcd_x arg = some r ∧ r < 2 ^ 64 ∧
      field_value 10 r 0 2 = (field_value 10 arg 0 2 + 1) % 100 ∧
      (∀ i, i ≤ 1 → slot r i ≤ 9) ∧
      ∀ j, 2 ≤ j → j ≤ 15 → slot r j = slot arg j := by
  obtain ⟨r, c, hr, hrlt, hv, hcl, hout⟩ :=
    add_sub_increment arg 0 1 (by decide) (by decide) (fun i _ hi => h i hi)
  have e0 : ((0 : Nat) : Int) = 0 := rfl
  have e1 : ((1 : Nat) : Int) = 1 := rfl
  rw [e0, e1] at hr
  refine ⟨r, ?_, hrlt, hv, fun i hi => hcl i (by omega) hi, fun j h2 hj => hout j hj (by omega)⟩
  rw [add_one_bcd_x, hr]
  rfl

/-- Witness of C10: the field 99 wraps to 00. -/
theorem add_one_bcd_x_correct_witness :
    (∀ i, i ≤ 1 → slot 0xf006a000000099 i ≤ 9) ∧
    ∃ r, add_one_bcd_x 0xf006a000000099 = some r ∧ r < 2 ^ 64 ∧
      field_value 10 r 0 2 = (field_value 10 0xf006a000000099 0 2 + 1) % 100 ∧
      (∀ i, i ≤ 1 → slot r i ≤ 9) ∧
      ∀ j, 2 ≤ j → j ≤ 15 → slot r j = slot 0xf006a000000099 j :=
  ⟨by intro i h; interval_cases i <;> decide,
    add_one_bcd_x_correct 0xf006a000000099 (by intro i h; interval_cases i <;> decide)⟩

/-! ## How the loop depends on its operands -/

/-- The carry after `k` passes depends on the operands only through their slots
`low, ..., low + k - 1`. -/
theorem carry_at_congr (bcd subtract : Bool) (a b a2 b2 low : Nat) (carry : Bool) (k : Nat)
    (ha : ∀ j, j < k → slot a (low + j) = slot a2 (low + j))
    (hb : ∀ j, j < k → slot b (low + j) = slot b2 (low + j)) :
    carry_at bcd subtract a b low carry k = carry_at bcd subtract a2 b2 low carry k := by
  induction k with
  | zero => rfl
  | succ k ih =>
    rw [carry_at, carry_at, ih (fun j hj => ha j (by omega)) (fun j hj => hb j (by omega)),
      ha k (by omega), hb k (by omega)]

/-- The nibble of pass `k` depends on the operands only through their slots
`low, ..., low + k`. -/
theorem nibble_at_congr (bcd subtract : Bool) (a b a2 b2 low : Nat) (carry : Bool) (k : Nat)
    (ha : ∀ j, j ≤ k → slot a (low + j) = slot a2 (low + j))
    (hb : ∀ j, j ≤ k → slot b (low + j) = slot b2 (low + j)) :
    nibble_at bcd subtract a b low carry k = nibble_at bcd subtract a2 b2 low carry k := by
  rw [nibble_at, nibble_at,
    carry_at_congr bcd subtract a b a2 b2 low carry k (fun j hj => ha j (by omega))
      (fun j hj => hb j (by omega)),
    ha k (by omega), hb k (by omega)]

/-- Running `m + k` passes is running `m` passes and then `k` passes from where they stopped. -/
theorem carry_at_add (bcd subtract : Bool) (a b low : Nat) (carry : Bool) (m k : Nat) :
    carry_at bcd subtract a b low carry (m + k) =
      carry_at bcd subtract a b (low + m) (carry_at bcd subtract a b low carry m) k := by
  induction k with
  | zero => rfl
  | succ k ih =>
    have h : m + (k + 1) = (m + k) + 1 := by omega
    have h2 : low + (m + k) = low + m + k := by omega
    rw [h, carry_at, carry_at, ih, h2]

theorem nibble_at_add (bcd subtract : Bool) (a b low : Nat) (carry : Bool) (m k : Nat) :
    nibble_at bcd subtract a b low carry (m + k) =
      nibble_at bcd subtract a b (low + m) (carry_at bcd subtract a b low carry m) k := by
  have h2 : low + (m + k) = low + m + k := by omega
  rw [nibble_at, nibble_at, carry_at_add, h2]

theorem digit_op_comm (bcd : Bool) (d1 d2 : Nat) (carry : Bool) :
    digit_op bcd false d1 d2 carry = digit_op bcd false d2 d1 carry := by
  simp only [digit_op, Bool.false_eq_true, if_false]
  rw [Nat.add_comm d1 d2]

theorem carry_at_comm (bcd : Bool) (a b low : Nat) (carry : Bool) (k : Nat) :
    carry_at bcd false a b low carry k = carry_at bcd false b a low carry k := by
  induction k with
  | zero => rfl
  | succ k ih => rw [carry_at, carry_at, ih, digit_op_comm]

theorem nibble_at_comm (bcd : Bool) (a b low : Nat) (carry : Bool) (k : Nat) :
    nibble_at bcd false a b low carry k = nibble_at bcd false b a low carry k := by
  rw [nibble_at, nibble_at, carry_at_comm, digit_op_comm]

/-- The slots of the complement of a 64-bit word are the complemented slots. -/
theorem slot_not64 (b i : Nat) (hi : i ≤ 15) : slot (not64 b) i = slot b i ^^^ 0xf := by
  apply Nat.eq_of_testBit_eq
  intro k
  have hall : (0xFFFFFFFFFFFFFFFF : Nat).testBit (4 * i + k) = decide (4 * i + k < 64) :=
    Nat.testBit_two_pow_sub_one 64 _
  rw [testBit_slot, Nat.testBit_xor, testBit_slot, testBit_fifteen, not64, Nat.testBit_xor, hall]
  by_cases hk : k < 4
  · have h64 : 4 * i + k < 64 := by omega
    simp [hk, h64]
  · simp [hk]

theorem carry_at_complement (a b low : Nat) (carry : Bool) (k : Nat) (hk : low + k ≤ 16) :
    carry_at false true a b low carry k = carry_at false false a (not64 b) low carry k := by
  induction k with
  | zero => rfl
  | succ k ih =>
    rw [carry_at, carry_at, ih (by omega), slot_not64 b (low + k) (by omega)]
    rfl

theorem nibble_at_complement (a b low : Nat) (carry : Bool) (k : Nat) (hk : low + k ≤ 15) :
    nibble_at false true a b low carry k = nibble_at false false a (not64 b) low carry k := by
  rw [nibble_at, nibble_at, carry_at_complement a b low carry k (by omega),
    slot_not64 b (low + k) hk]
  rfl

set_option maxRecDepth 100000 in
/-- Adding zero in decimal mode stores a decimal digit, whatever nibble was there. -/
theorem digit_op_add_zero_all : ∀ d, d < 16 → ∀ c : Bool, (digit_op true false d 0 c).1 ≤ 9 := by
  decide

/-! ## Dependence on the range only, and chaining -/

/-- C11 (slots outside the range are not read): for every mode, direction, carry-in and range
`0 ≤ low ≤ high ≤ 15`, if `a` and `a2` agree on the slots `low..high` and `b` and `b2` agree on
the slots `low..high`, then `add_sub` on `(a, b)` and on `(a2, b2)` returns the same
carry/borrow-out and result words that agree on every slot `low..high`; and when `a = a2` the
two result words are equal, so that the whole result and the carry-out do not depend on the
slots of `operand_b` outside the range. -/
theorem add_sub_reads_only_range (bcd subtract : Bool) (a b a2 b2 : Nat) (carry_in : Bool)
    (low high : Nat) (hlh : low ≤ high) (hh : high ≤ 15)
    (ha : ∀ i, low ≤ i → i ≤ high → slot a i = slot a2 i)
    (hb : ∀ i, low ≤ i → i ≤ high → slot b i = slot b2 i) :
    ∃ r r2 c, add_sub bcd subtract a b carry_in (low : Int) (high : Int) = some (r, c) ∧
      add_sub bcd subtract a2 b2 carry_in (low : Int) (high : Int) = some (r2, c) ∧
      (∀ i, low ≤ i → i ≤ high → slot r i = slot r2 i) ∧
      (a = a2 → r = r2) := by
  obtain ⟨r, hr, hrlt, hrin, hrout⟩ := add_sub_spec bcd subtract a b carry_in low high hlh hh
  obtain ⟨r2, hr2, hr2lt, hr2in, hr2out⟩ :=
    add_sub_spec bcd subtract a2 b2 carry_in low high hlh hh
  have hc := carry_at_congr bcd subtract a b a2 b2 low (Bool.xor carry_in subtract)
    (high + 1 - low) (fun j hj => ha _ (by omega) (by omega))
    (fun j hj => hb _ (by omega) (by omega))
  rw [← hc] at hr2
  have hin : ∀ i, low ≤ i → i ≤ high → slot r i = slot r2 i := by
    intro i hi1 hi2
    have e : low + (i - low) = i := by omega
    have h1 := hrin (i - low) (by omega)
    have h2 := hr2in (i - low) (by omega)
    rw [e] at h1 h2
    rw [h1, h2]
    exact nibble_at_congr bcd subtract a b a2 b2 low _ (i - low)
      (fun j hj => ha _ (by omega) (by omega)) (fun j hj => hb _ (by omega) (by omega))
  refine ⟨r, r2, _, hr, hr2, hin, ?_⟩
  intro haa
  apply eq_of_slots hrlt hr2lt
  intro j hj
  by_cases hjr : low ≤ j ∧ j ≤ high
  · exact hin j hjr.1 hjr.2
  · rw [hrout j hj (by omega), hr2out j hj (by omega), haa]

/-- Witness of C11: two pairs of operands that differ only outside the slots 1..2. -/
theorem add_sub_reads_only_range_witness :
    (1 ≤ 2 ∧ 2 ≤ 15 ∧ (∀ i, 1 ≤ i → i ≤ 2 → slot 0x5384 i = slot 0x7381 i) ∧
      (∀ i, 1 ≤ i → i ≤ 2 → slot 0x0290 i = slot 0xf29a i)) ∧
    ∃ r r2 c, add_sub true false 0x5384 0x0290 true ((1 : Nat) : Int) ((2 : Nat) : Int) =
        some (r, c) ∧
      add_sub true false 0x7381 0xf29a true ((1 : Nat) : Int) ((2 : Nat) : Int) = some (r2, c) ∧
      (∀ i, 1 ≤ i → i ≤ 2 → slot r i = slot r2 i) ∧
      (0x5384 = 0x7381 → r = r2) :=
  ⟨⟨by decide, by decide, by intro i h1 h2; interval_cases i <;> decide,
      by intro i h1 h2; interval_cases i <;> decide⟩,
    add_sub_reads_only_range true false 0x5384 0x0290 0x7381 0xf29a true 1 2
      (by decide) (by decide) (by intro i h1 h2; interval_cases i <;> decide)
      (by intro i h1 h2; interval_cases i <;> decide)⟩

/-- C15 (carry chaining across adjacent ranges): for every mode, direction, operands, carry-in
and indices `0 ≤ low ≤ mid < high ≤ 15`, the call over `low..mid` returns some `(r1, c1)`, the
call on `r1` with carry/borrow-in `c1` over `mid + 1..high` returns some `(r2, c2)`, and the
single call over `low..high` returns that same `(r2, c2)`. -/
theorem add_sub_chain (bcd subtract : Bool) (a b : Nat) (carry_in : Bool) (low mid high : Nat)
    (hlm : low ≤ mid) (hmh : mid < high) (hh : high ≤ 15) :
    ∃ r1 c1 r2 c2, add_sub bcd subtract a b carry_in (low : Int) (mid : Int) = some (r1, c1) ∧
      add_sub bcd subtract r1 b c1 ((mid + 1 : Nat) : Int) (high : Int) = some (r2, c2) ∧
      add_sub bcd subtract a b carry_in (low : Int) (high : Int) = some (r2, c2) := by
  obtain ⟨r1, hr1, _, hr1in, hr1out⟩ :=
    add_sub_spec bcd subtract a b carry_in low mid hlm (by omega)
  obtain ⟨r2, hr2, hr2lt, hr2in, hr2out⟩ :=
    add_sub_spec bcd subtract r1 b
      (Bool.xor (carry_at bcd subtract a b low (Bool.xor carry_in subtract) (mid + 1 - low))
        subtract) (mid + 1) high (by omega) hh
  obtain ⟨r, hr, hrlt, hrin, hrout⟩ :=
    add_sub_spec bcd subtract a b carry_in low high (by omega) hh
  have hx : ∀ x : Bool, Bool.xor (Bool.xor x subtract) subtract = x := by
    intro x; cases x <;> cases subtract <;> rfl
  rw [hx] at hr2 hr2in
  have hfr : ∀ j, slot r1 (mid + 1 + j) = slot a (mid + 1 + j) ∨ 15 < mid + 1 + j := by
    intro j
    by_cases h15 : mid + 1 + j ≤ 15
    · exact Or.inl (hr1out _ h15 (Or.inr (by omega)))
    · exact Or.inr (by omega)
  have hsplit : high + 1 - low = (mid + 1 - low) + (high + 1 - (mid + 1)) := by omega
  have hlow : low + (mid + 1 - low) = mid + 1 := by omega
  have hc : carry_at bcd subtract r1 b (mid + 1)
        (carry_at bcd subtract a b low (Bool.xor carry_in subtract) (mid + 1 - low))
        (high + 1 - (mid + 1)) =
      carry_at bcd subtract a b low (Bool.xor carry_in subtract) (high + 1 - low) := by
    rw [hsplit, carry_at_add, hlow]
    apply carry_at_congr
    · intro j hj
      rcases hfr j with h | h
      · exact h
      · omega
    · intro j _; rfl
  rw [hc] at hr2
  have hrr : r2 = r := by
    apply eq_of_slots hr2lt hrlt
    intro j hj
    by_cases hj1 : j < low ∨ high < j
    · rw [hr2out j hj (by omega), hr1out j hj (by omega), hrout j hj hj1]
    · by_cases hj2 : j ≤ mid
      · have e : low + (j - low) = j := by omega
        have h1 := hr1in (j - low) (by omega)
        have h2 := hrin (j - low) (by omega)
        rw [e] at h1 h2
        rw [hr2out j hj (Or.inl (by omega)), h1, h2]
      · have e : mid + 1 + (j - (mid + 1)) = j := by omega
        have e2 : low + (j - low) = j := by omega
        have e3 : j - low = (mid + 1 - low) + (j - (mid + 1)) := by omega
        have h1 := hr2in (j - (mid + 1)) (by omega)
        have h2 := hrin (j - low) (by omega)
        rw [e] at h1
        rw [e2] at h2
        rw [h1, h2, e3, nibble_at_add, hlow]
        apply nibble_at_congr
        · intro i hi
          rcases hfr i with h | h
          · exact h
          · omega
        · intro i _; rfl
  rw [hrr] at hr2
  exact ⟨r1, _, r, _, hr1, hr2, hr⟩

/-- Witness of C15: a decimal subtraction over the slots 0..3 split after slot 1. -/
theorem add_sub_chain_witness :
    (0 ≤ 1 ∧ 1 < 3 ∧ 3 ≤ 15) ∧
    ∃ r1 c1 r2 c2, add_sub true true 0x1203 0x0945 false ((0 : Nat) : Int) ((1 : Nat) : Int) =
        some (r1, c1) ∧
      add_sub true true r1 0x0945 c1 ((1 + 1 : Nat) : Int) ((3 : Nat) : Int) = some (r2, c2) ∧
      add_sub true true 0x1203 0x0945 false ((0 : Nat) : Int) ((3 : Nat) : Int) =
        some (r2, c2) :=
  ⟨by decide, add_sub_chain true true 0x1203 0x0945 false 0 1 3 (by decide) (by decide)
    (by decide)⟩

/-! ## Closure, commutativity and complement-and-add -/

/-- C16 (BCD closure): in decimal mode, for addition and for subtraction, every carry-in and
every range `0 ≤ low ≤ high ≤ 15`, if all slots `low..high` of `operand_a` and of `operand_b`
hold 0-9 then `add_sub` returns a word whose slots `low..high` all hold 0-9. -/
theorem add_sub_bcd_closed (subtract : Bool) (a b : Nat) (carry_in : Bool) (low high : Nat)
    (hlh : low ≤ high) (hh : high ≤ 15)
    (ha : ∀ i, low ≤ i → i ≤ high → slot a i ≤ 9)
    (hb : ∀ i, low ≤ i → i ≤ high → slot b i ≤ 9) :
    ∃ r c, add_sub true subtract a b carry_in (low : Int) (high : Int) = some (r, c) ∧
      ∀ i, low ≤ i → i ≤ high → slot r i ≤ 9 := by
  obtain ⟨r, hr, _, _, _⟩ := add_sub_spec true subtract a b carry_in low high hlh hh
  have hcl := add_sub_closed true subtract a b carry_in low high hlh hh
    (well_formed_bcd ha) (well_formed_bcd hb) r _ hr
  refine ⟨r, _, hr, ?_⟩
  intro i hi1 hi2
  have h := hcl i hi1 hi2
  have h10 : radix true = 10 := rfl
  rw [h10] at h
  omega

/-- Witness of C16: 1203 - 0945 in decimal mode over the slots 0..3. -/
theorem add_sub_bcd_closed_witness :
    (0 ≤ 3 ∧ 3 ≤ 15 ∧ (∀ i, 0 ≤ i → i ≤ 3 → slot 0x1203 i ≤ 9) ∧
      (∀ i, 0 ≤ i → i ≤ 3 → slot 0x0945 i ≤ 9)) ∧
    ∃ r c, add_sub true true 0x1203 0x0945 false ((0 : Nat) : Int) ((3 : Nat) : Int) =
        some (r, c) ∧
      ∀ i, 0 ≤ i → i ≤ 3 → slot r i ≤ 9 :=
  ⟨⟨by decide, by decide, by intro i _ h; interval_cases i <;> decide,
      by intro i _ h; interval_cases i <;> decide⟩,
    add_sub_bcd_closed true 0x1203 0x0945 false 0 3 (by decide) (by decide)
      (by intro i _ h; interval_cases i <;> decide)
      (by intro i _ h; interval_cases i <;> decide)⟩

/-- Decimal addition of `zero` over a range: every slot of the range of the result holds 0-9,
whatever the nibbles of the operand. -/
theorem add_sub_zero_normalises (arg : Nat) (carry_in : Bool) (low high : Nat)
    (hlh : low ≤ high) (hh : high ≤ 15) :
    ∃ r c, add_sub true false arg zero carry_in (low : Int) (high : Int) = some (r, c) ∧
      ∀ i, low ≤ i → i ≤ high → slot r i ≤ 9 := by
  obtain ⟨r, hr, _, hrin, _⟩ := add_sub_spec true false arg zero carry_in low high hlh hh
  refine ⟨r, _, hr, ?_⟩
  intro i hi1 hi2
  have e : low + (i - low) = i := by omega
  have h := hrin (i - low) (by omega)
  rw [e] at h
  rw [h, nibble_at, e, zero, slot_zero]
  exact digit_op_add_zero_all _ (slot_lt _ _) _

/-- C17 (the increments normalise non-decimal digits): for every `arg` whatsoever,
`add_one_bcd_m` returns a word whose slots 3..12 all hold 0-9, and `add_one_bcd_x` returns a
word whose slots 0..1 both hold 0-9. -/
theorem increments_normalise (arg : Nat) :
    (∃ r, add_one_bcd_m arg = some r ∧ ∀ i, 3 ≤ i → i ≤ 12 → slot r i ≤ 9) ∧
      ∃ r, add_one_bcd_x arg = some r ∧ ∀ i, i ≤ 1 → slot r i ≤ 9 := by
  constructor
  · obtain ⟨r, c, hr, h⟩ := add_sub_zero_normalises arg true 3 12 (by decide) (by decide)
    have e3 : ((3 : Nat) : Int) = 3 := rfl
    have e12 : ((12 : Nat) : Int) = 12 := rfl
    rw [e3, e12] at hr
    refine ⟨r, ?_, h⟩
    rw [add_one_bcd_m, hr]
    rfl
  · obtain ⟨r, c, hr, h⟩ := add_sub_zero_normalises arg true 0 1 (by decide) (by decide)
    have e0 : ((0 : Nat) : Int) = 0 := rfl
    have e1 : ((1 : Nat) : Int) = 1 := rfl
    rw [e0, e1] at hr
    refine ⟨r, ?_, fun i hi => h i (by omega) hi⟩
    rw [add_one_bcd_x, hr]
    rfl

/-- C18 (addition is commutative inside the range): for every mode, carry-in, range
`0 ≤ low ≤ high ≤ 15` and all operands, adding `b` to `a` and adding `a` to `b` return the
same carry-out and result words that agree on every slot `low..high`. -/
theorem add_sub_add_comm (bcd : Bool) (a b : Nat) (carry_in : Bool) (low high : Nat)
    (hlh : low ≤ high) (hh : high ≤ 15) :
    ∃ r r2 c, add_sub bcd false a b carry_in (low : Int) (high : Int) = some (r, c) ∧
      add_sub bcd false b a carry_in (low : Int) (high : Int) = some (r2, c) ∧
      ∀ i, low ≤ i → i ≤ high → slot r i = slot r2 i := by
  obtain ⟨r, hr, _, hrin, _⟩ := add_sub_spec bcd false a b carry_in low high hlh hh
  obtain ⟨r2, hr2, _, hr2in, _⟩ := add_sub_spec bcd false b a carry_in low high hlh hh
  rw [carry_at_comm bcd b a] at hr2
  refine ⟨r, r2, _, hr, hr2, ?_⟩
  intro i hi1 hi2
  have e : low + (i - low) = i := by omega
  have h1 := hrin (i - low) (by omega)
  have h2 := hr2in (i - low) (by omega)
  rw [e] at h1 h2
  rw [h1, h2, nibble_at_comm]

/-- Witness of C18: 0x9a7 and 0x6f5 in decimal mode over the slots 0..2. -/
theorem add_sub_add_comm_witness :
    (0 ≤ 2 ∧ 2 ≤ 15) ∧
    ∃ r r2 c, add_sub true false 0x9a7 0x6f5 true ((0 : Nat) : Int) ((2 : Nat) : Int) =
        some (r, c) ∧
      add_sub true false 0x6f5 0x9a7 true ((0 : Nat) : Int) ((2 : Nat) : Int) = some (r2, c) ∧
      ∀ i, 0 ≤ i → i ≤ 2 → slot r i = slot r2 i :=
  ⟨by decide, add_sub_add_comm true 0x9a7 0x6f5 true 0 2 (by decide) (by decide)⟩

/-- C14 (complement-and-add): in hexadecimal mode, for all operands, every flag `c` and every
range `0 ≤ low ≤ high ≤ 15`, subtracting `b` with borrow-in `c` returns the same result word as
adding the bitwise complement of `b` with carry-in `!c`, and the borrow-out of the subtraction
is the negation of the carry-out of that addition. -/
theorem add_sub_complement_and_add (a b : Nat) (c : Bool) (low high : Nat)
    (hlh : low ≤ high) (hh : high ≤ 15) :
    ∃ r carry_out, add_sub false false a (not64 b) (!c) (low : Int) (high : Int) =
        some (r, carry_out) ∧
      add_sub false true a b c (low : Int) (high : Int) = some (r, !carry_out) := by
  obtain ⟨r, hr, hrlt, hrin, hrout⟩ := add_sub_spec false true a b c low high hlh hh
  obtain ⟨r2, hr2, hr2lt, hr2in, hr2out⟩ :=
    add_sub_spec false false a (not64 b) (!c) low high hlh hh
  simp only [Bool.xor_false, Bool.xor_true] at hr hrin hr2 hr2in
  rw [carry_at_complement a b low (!c) (high + 1 - low) (by omega)] at hr
  have hrr : r = r2 := by
    apply eq_of_slots hrlt hr2lt
    intro j hj
    by_cases hjr : low ≤ j ∧ j ≤ high
    · have e : low + (j - low) = j := by omega
      have h1 := hrin (j - low) (by omega)
      have h2 := hr2in (j - low) (by omega)
      rw [e] at h1 h2
      rw [h1, h2, nibble_at_complement a b low (!c) (j - low) (by omega)]
    · rw [hrout j hj (by omega), hr2out j hj (by omega)]
  rw [hrr] at hr
  exact ⟨r2, _, hr2, hr⟩

/-- Witness of C14: 0x1234 - 0x0fff with borrow-in over the slots 0..3. -/
theorem add_sub_complement_and_add_witness :
    (0 ≤ 3 ∧ 3 ≤ 15) ∧
    ∃ r carry_out, add_sub false false 0x1234 (not64 0x0fff) (!true) ((0 : Nat) : Int)
          ((3 : Nat) : Int) = some (r, carry_out) ∧
      add_sub false true 0x1234 0x0fff true ((0 : Nat) : Int) ((3 : Nat) : Int) =
        some (r, !carry_out) :=
  ⟨by decide, add_sub_complement_and_add 0x1234 0x0fff true 0 3 (by decide) (by decide)⟩

/-! ## Writing a slot arithmetically -/

theorem slot_eq_mod_div (x j : Nat) : slot x j = x % 16 ^ (j + 1) / 16 ^ j := by
  rw [slot, pow_succ, Nat.mod_mul_right_div_self]

theorem slot_spec_write_same (word i v : Nat) (hv : v < 16) :
    slot (spec_write_slot word i v) i = v := by
  have hP : 0 < 16 ^ i := Nat.pow_pos (by norm_num)
  have e : spec_write_slot word i v =
      word % 16 ^ i + 16 ^ i * (v + 16 * (word / 16 ^ (i + 1))) := by
    rw [spec_write_slot, pow_succ]; ring
  rw [slot, e, Nat.add_mul_div_left _ _ hP, Nat.div_eq_of_lt (Nat.mod_lt _ hP), Nat.zero_add,
    Nat.add_mul_mod_self_left, Nat.mod_eq_of_lt hv]

theorem slot_spec_write_below (word i v j : Nat) (hj : j < i) :
    slot (spec_write_slot word i v) j = slot word j := by
  obtain ⟨d, rfl⟩ : ∃ d, i = j + 1 + d := ⟨i - (j + 1), by omega⟩
  have hdvd : 16 ^ (j + 1) ∣ 16 ^ (j + 1 + d) := pow_dvd_pow 16 (by omega)
  have e : spec_write_slot word (j + 1 + d) v =
      word % 16 ^ (j + 1 + d) +
        16 ^ (j + 1) * (16 ^ d * (v + 16 * (word / 16 ^ (j + 1 + d + 1)))) := by
    rw [spec_write_slot, pow_succ, pow_add]; ring
  rw [slot_eq_mod_div, slot_eq_mod_div, e, Nat.add_mul_mod_self_left,
    Nat.mod_mod_of_dvd _ hdvd]

theorem spec_write_slot_div (word i v : Nat) (hv : v < 16) :
    spec_write_slot word i v / 16 ^ (i + 1) = word / 16 ^ (i + 1) := by
  have hP : 0 < 16 ^ i := Nat.pow_pos (by norm_num)
  have hQ : 0 < 16 ^ (i + 1) := Nat.pow_pos (by norm_num)
  have hl : word % 16 ^ i < 16 ^ i := Nat.mod_lt _ hP
  have hvP : v * 16 ^ i + 16 ^ i ≤ 16 * 16 ^ i := by
    have := Nat.mul_le_mul_right (16 ^ i) (Nat.succ_le_of_lt hv)
    rw [Nat.succ_mul] at this
    exact this
  have hsmall : word % 16 ^ i + v * 16 ^ i < 16 ^ (i + 1) := by
    rw [pow_succ]; omega
  rw [spec_write_slot, Nat.mul_comm (word / 16 ^ (i + 1)), Nat.add_mul_div_left _ _ hQ,
    Nat.div_eq_of_lt hsmall, Nat.zero_add]

theorem slot_spec_write_above (word i v j : Nat) (hv : v < 16) (hj : i < j) :
    slot (spec_write_slot word i v) j = slot word j := by
  obtain ⟨d, rfl⟩ : ∃ d, j = i + 1 + d := ⟨j - (i + 1), by omega⟩
  rw [slot, slot, pow_add, ← Nat.div_div_eq_div_mul, ← Nat.div_div_eq_div_mul,
    spec_write_slot_div word i v hv]

theorem spec_write_slot_lt (word i v : Nat) (hi : i ≤ 15) (hv : v < 16)
    (hw : word < 2 ^ 64) : spec_write_slot word i v < 2 ^ 64 := by
  have hQ : 0 < 16 ^ (i + 1) := Nat.pow_pos (by norm_num)
  have h64 : (2 : Nat) ^ 64 = 16 ^ (i + 1) * 16 ^ (15 - i) := by
    rw [← pow_add]
    have : i + 1 + (15 - i) = 16 := by omega
    rw [this]
    norm_num
  have hdiv := spec_write_slot_div word i v hv
  have hH : word / 16 ^ (i + 1) < 16 ^ (15 - i) := by
    rw [Nat.div_lt_iff_lt_mul hQ, Nat.mul_comm, ← h64]
    exact hw
  rw [← hdiv] at hH
  rw [h64]
  calc spec_write_slot word i v
      < 16 ^ (i + 1) * (spec_write_slot word i v / 16 ^ (i + 1) + 1) :=
        Nat.lt_mul_div_succ _ hQ
    _ ≤ 16 ^ (i + 1) * 16 ^ (15 - i) := Nat.mul_le_mul_left _ hH

/-! ## The code against the reference procedure -/

theorem digit_op_fst_lt (bcd subtract : Bool) (d1 d2 : Nat) (carry : Bool) :
    (digit_op bcd subtract d1 d2 carry).1 < 16 := by
  have h15 : ∀ m : Nat, m &&& 0xf = m % 2 ^ 4 := fun m => Nat.and_pow_two_sub_one_eq_mod m 4
  simp only [digit_op, h15]
  exact Nat.mod_lt _ (by norm_num)

set_option maxRecDepth 100000 in
/-- On nibbles, the digit arithmetic of the specification and that of the code coincide: in
particular "add 6 if `raw > 9`" and "add 6 if the carry is set after or-ing in `raw > 9`". -/
theorem spec_digit_eq_all : ∀ bcd subtract : Bool, ∀ d1, d1 < 16 → ∀ d2, d2 < 16 → ∀ c : Bool,
    spec_digit bcd subtract d1 d2 c = digit_op bcd subtract d1 d2 c := by
  decide

/-- The loop of the reference procedure over the `n` slots `i, ..., i + n - 1`, described the
way `add_sub_loop_spec` describes the loop of the code. -/
theorem spec_fold_spec (bcd subtract : Bool) (a b : Nat) (n : Nat) :
    ∀ (i word : Nat) (carry : Bool), i + n ≤ 16 → word < 2 ^ 64 →
      ((List.range' i n).foldl (spec_step bcd subtract a b) (word, carry)).2 =
          carry_at bcd subtract a b i carry n ∧
        ((List.range' i n).foldl (spec_step bcd subtract a b) (word, carry)).1 < 2 ^ 64 ∧
        (∀ k, k < n →
          slot ((List.range' i n).foldl (spec_step bcd subtract a b) (word, carry)).1 (i + k) =
            nibble_at bcd subtract a b i carry k) ∧
        ∀ j, (j < i ∨ i + n ≤ j) →
          slot ((List.range' i n).foldl (spec_step bcd subtract a b) (word, carry)).1 j =
            slot word j := by
  induction n with
  | zero =>
    intro i word carry _ hw
    refine ⟨rfl, hw, ?_, ?_⟩
    · intro k hk; omega
    · intro j _; rfl
  | succ n ih =>
    intro i word carry hin hw
    have hd : spec_digit bcd subtract (slot a i) (slot b i) carry =
        digit_op bcd subtract (slot a i) (slot b i) carry :=
      spec_digit_eq_all bcd subtract _ (slot_lt _ _) _ (slot_lt _ _) carry
    have hv := digit_op_fst_lt bcd subtract (slot a i) (slot b i) carry
    have hstep : spec_step bcd subtract a b (word, carry) i =
        (spec_write_slot word i (digit_op bcd subtract (slot a i) (slot b i) carry).1,
          (digit_op bcd subtract (slot a i) (slot b i) carry).2) := by
      simp only [spec_step, hd]
    have hw2 := spec_write_slot_lt word i _ (by omega) hv hw
    obtain ⟨ihc, ihlt, ihin, ihout⟩ := ih (i + 1)
      (spec_write_slot word i (digit_op bcd subtract (slot a i) (slot b i) carry).1)
      (digit_op bcd subtract (slot a i) (slot b i) carry).2 (by omega) hw2
    have hfold : (List.range' i (n + 1)).foldl (spec_step bcd subtract a b) (word, carry) =
        (List.range' (i + 1) n).foldl (spec_step bcd subtract a b)
          (spec_write_slot word i (digit_op bcd subtract (slot a i) (slot b i) carry).1,
            (digit_op bcd subtract (slot a i) (slot b i) carry).2) := by
      rw [List.range'_succ, List.foldl_cons, hstep]
    rw [hfold]
    refine ⟨?_, ihlt, ?_, ?_⟩
    · rw [ihc, carry_at_shift]
    · intro k hk
      rcases Nat.eq_zero_or_pos k with h0 | hpos
      · subst h0
        have h := ihout i (Or.inl (by omega))
        rw [slot_spec_write_same _ _ _ hv] at h
        simpa [nibble_at, carry_at] using h
      · obtain ⟨k2, rfl⟩ : ∃ k2, k = k2 + 1 := ⟨k - 1, by omega⟩
        have h := ihin k2 (by omega)
        rw [nibble_at_shift] at h
        rw [← h]
        congr 1
        omega
    · intro j hj
      rw [ihout j (by omega)]
      rcases hj with hlt | hge
      · exact slot_spec_write_below word i _ j hlt
      · exact slot_spec_write_above word i _ j hv (by omega)

/-- C13 (the code implements the algorithm of the specification): for every mode, direction,
carry-in, range `0 ≤ low ≤ high ≤ 15` and all 64-bit operands, nibbles A-F in decimal mode
included, `add_sub` returns the result word and the carry-out of the reference procedure of
section 4.1 of the specification. -/
theorem add_sub_refines_spec (bcd subtract : Bool) (a b : Nat) (carry_in : Bool)
    (low high : Nat) (hlh : low ≤ high) (hh : high ≤ 15) (ha : a < 2 ^ 64) :
    add_sub bcd subtract a b carry_in (low : Int) (high : Int) =
      some (spec_add_sub bcd subtract a b carry_in low high) := by
  obtain ⟨r, hr, hrlt, hrin, hrout⟩ := add_sub_spec bcd subtract a b carry_in low high hlh hh
  obtain ⟨hc, hlt, hin, hout⟩ := spec_fold_spec bcd subtract a b (high + 1 - low) low a
    (Bool.xor carry_in subtract) (by omega) ha
  have hrr : r = ((List.range' low (high + 1 - low)).foldl (spec_step bcd subtract a b)
      (a, Bool.xor carry_in subtract)).1 := by
    apply eq_of_slots hrlt hlt
    intro j hj
    by_cases hjr : low ≤ j ∧ j ≤ high
    · have e : low + (j - low) = j := by omega
      have h1 := hrin (j - low) (by omega)
      have h2 := hin (j - low) (by omega)
      rw [e] at h1 h2
      rw [h1, h2]
    · rw [hrout j hj (by omega), hout j (by omega)]
  rw [hr, spec_add_sub]
  simp only [hc, ← hrr]

/-- Witness of C13: a decimal addition with nibbles A-F in the range. -/
theorem add_sub_refines_spec_witness :
    (0 ≤ 3 ∧ 3 ≤ 15 ∧ 0xf0069a0b00c9fab < 2 ^ 64) ∧
    add_sub true false 0xf0069a0b00c9fab 0xe7f9 true ((0 : Nat) : Int) ((3 : Nat) : Int) =
      some (spec_add_sub true false 0xf0069a0b00c9fab 0xe7f9 true 0 3) :=
  ⟨by decide, add_sub_refines_spec true false 0xf0069a0b00c9fab 0xe7f9 true 0 3 (by decide)
    (by decide) (by decide)⟩

/-! ## Termination, shift counts and the empty range -/

/-- Dropping the ghost record from the recorded loop gives the loop, on every input. -/
theorem add_sub_loop_log_fst (bcd subtract : Bool) (arg1 arg2 : Nat) (high_digit_idx : Int)
    (n : Nat) : ∀ (digit_idx : Int) (result : Nat) (carry : Bool) (log : List Int),
      (high_digit_idx + 1 - digit_idx).toNat = n →
      (add_sub_loop_log bcd subtract arg1 arg2 high_digit_idx digit_idx result carry log).1 =
        add_sub_loop bcd subtract arg1 arg2 high_digit_idx digit_idx result carry := by
  induction n with
  | zero =>
    intro digit_idx result carry log hn
    rw [add_sub_loop_log, add_sub_loop, if_neg (by omega), if_neg (by omega)]
  | succ n ih =>
    intro digit_idx result carry log hn
    rw [add_sub_loop_log, add_sub_loop, if_pos (by omega), if_pos (by omega)]
    cases add_sub_iter bcd subtract arg1 arg2 digit_idx result carry with
    | none => rfl
    | some st => exact ih (digit_idx + 1) st.1 st.2 _ (by omega)

/-- Dropping the ghost record from `add_sub_log` gives `add_sub`, on every input. -/
theorem add_sub_log_fst (bcd subtract : Bool) (arg1 arg2 : Nat) (carry_in : Bool)
    (low_digit_idx high_digit_idx : Int) :
    (add_sub_log bcd subtract arg1 arg2 carry_in low_digit_idx high_digit_idx).1 =
      add_sub bcd subtract arg1 arg2 carry_in low_digit_idx high_digit_idx := by
  simp only [add_sub_log, add_sub,
    add_sub_loop_log_fst bcd subtract arg1 arg2 high_digit_idx _ low_digit_idx arg1 _ [] rfl]

/-- On the slots `i, ..., i + n - 1` below 16 the loop enters exactly `n` passes, with the
shift counts `4 * i, ..., 4 * (i + n - 1)`. -/
theorem add_sub_loop_log_snd (bcd subtract : Bool) (arg1 arg2 : Nat) (n : Nat) :
    ∀ (i result : Nat) (carry : Bool) (log : List Int), i + n ≤ 16 →
      (add_sub_loop_log bcd subtract arg1 arg2 ((i : Int) + n - 1) (i : Int) result carry
          log).2 =
        log ++ (List.range' i n).map (fun (j : Nat) => (j : Int) * 4) := by
  induction n with
  | zero =>
    intro i result carry log _
    have h : ¬ ((i : Int) ≤ (i : Int) + ((0 : Nat) : Int) - 1) := by omega
    rw [add_sub_loop_log, if_neg h]
    simp
  | succ n ih =>
    intro i result carry log hin
    obtain ⟨r1, hr1, _, _, _⟩ :=
      add_sub_iter_spec bcd subtract arg1 arg2 i result carry (by omega)
    have h : (i : Int) ≤ (i : Int) + ((n + 1 : Nat) : Int) - 1 := by omega
    have h2 : (i : Int) + ((n + 1 : Nat) : Int) - 1 = ((i + 1 : Nat) : Int) + (n : Int) - 1 := by
      push_cast; ring
    have h3 : (i : Int) + 1 = ((i + 1 : Nat) : Int) := by push_cast; rfl
    rw [add_sub_loop_log, if_pos h]
    simp only [hr1]
    rw [h2, h3, ih (i + 1) _ _ _ (by omega), List.range'_succ, List.map_cons,
      List.append_assoc]
    rfl

/-- C12 (totality under the precondition): for every input with `0 ≤ low ≤ high ≤ 15`,
`add_sub` returns; its loop enters exactly `high - low + 1` passes, at most 16, one for each
slot `low, ..., high` in increasing order; and the shift count `digit_idx * 4` of every pass
lies in `0 .. 60`, so that no shift by 64 or more bits is ever reached. -/
theorem add_sub_total (bcd subtract : Bool) (a b : Nat) (carry_in : Bool) (low high : Nat)
    (hlh : low ≤ high) (hh : high ≤ 15) :
    ∃ r c, add_sub bcd subtract a b carry_in (low : Int) (high : Int) = some (r, c) ∧
      add_sub_log bcd subtract a b carry_in (low : Int) (high : Int) =
        (some (r, c), (List.range' low (high - low + 1)).map (fun (i : Nat) => (i : Int) * 4)) ∧
      (add_sub_log bcd subtract a b carry_in (low : Int) (high : Int)).2.length =
        high - low + 1 ∧
      (add_sub_log bcd subtract a b carry_in (low : Int) (high : Int)).2.length ≤ 16 ∧
      ∀ shift_count,
        shift_count ∈ (add_sub_log bcd subtract a b carry_in (low : Int) (high : Int)).2 →
          0 ≤ shift_count ∧ shift_count ≤ 60 := by
  obtain ⟨r, hr, _, _, _⟩ := add_sub_spec bcd subtract a b carry_in low high hlh hh
  have hfst := add_sub_log_fst bcd subtract a b carry_in (low : Int) (high : Int)
  have hhigh : (high : Int) = (low : Int) + ((high - low + 1 : Nat) : Int) - 1 := by omega
  have hsnd : (add_sub_log bcd subtract a b carry_in (low : Int) (high : Int)).2 =
      (List.range' low (high - low + 1)).map (fun (i : Nat) => (i : Int) * 4) := by
    have h := add_sub_loop_log_snd bcd subtract a b (high - low + 1) low a
      (Bool.xor carry_in subtract) [] (by omega)
    rw [← hhigh, List.nil_append] at h
    simp only [add_sub_log, h]
  rw [hr] at hfst
  refine ⟨r, _, hr, Prod.ext hfst hsnd, ?_, ?_, ?_⟩
  · rw [hsnd, List.length_map, List.length_range']
  · rw [hsnd, List.length_map, List.length_range']
    omega
  · intro shift_count hmem
    rw [hsnd, List.mem_map] at hmem
    obtain ⟨i, hi, rfl⟩ := hmem
    rw [List.mem_range'_1] at hi
    omega

/-- Witness of C12: the range 3..12 of `add_one_bcd_m`. -/
theorem add_sub_total_witness :
    (3 ≤ 12 ∧ 12 ≤ 15) ∧
    ∃ r c, add_sub true false 0xf006a0000000ab 0 true ((3 : Nat) : Int) ((12 : Nat) : Int) =
        some (r, c) ∧
      add_sub_log true false 0xf006a0000000ab 0 true ((3 : Nat) : Int) ((12 : Nat) : Int) =
        (some (r, c), (List.range' 3 (12 - 3 + 1)).map (fun (i : Nat) => (i : Int) * 4)) ∧
      (add_sub_log true false 0xf006a0000000ab 0 true ((3 : Nat) : Int)
        ((12 : Nat) : Int)).2.length = 12 - 3 + 1 ∧
      (add_sub_log true false 0xf006a0000000ab 0 true ((3 : Nat) : Int)
        ((12 : Nat) : Int)).2.length ≤ 16 ∧
      ∀ shift_count,
        shift_count ∈ (add_sub_log true false 0xf006a0000000ab 0 true ((3 : Nat) : Int)
          ((12 : Nat) : Int)).2 →
          0 ≤ shift_count ∧ shift_count ≤ 60 :=
  ⟨by decide, add_sub_total true false 0xf006a0000000ab 0 true 3 12 (by decide) (by decide)⟩

/-- C19 (empty range): for every mode, direction, operands and carry-in, when
`low_digit_idx > high_digit_idx` the loop body is never entered, and `add_sub` returns
`operand_a` unchanged with a carry/borrow-out equal to `carry_in`. -/
theorem add_sub_empty_range (bcd subtract : Bool) (a b : Nat) (carry_in : Bool)
    (low_digit_idx high_digit_idx : Int) (h : low_digit_idx > high_digit_idx) :
    add_sub_log bcd subtract a b carry_in low_digit_idx high_digit_idx =
        (some (a, carry_in), []) ∧
      add_sub bcd subtract a b carry_in low_digit_idx high_digit_idx = some (a, carry_in) := by
  have hx : Bool.xor (Bool.xor carry_in subtract) subtract = carry_in := by
    cases carry_in <;> cases subtract <;> rfl
  have hlog : add_sub_log bcd subtract a b carry_in low_digit_idx high_digit_idx =
      (some (a, carry_in), []) := by
    have hn : ¬ low_digit_idx ≤ high_digit_idx := by omega
    simp only [add_sub_log]
    rw [add_sub_loop_log, if_neg hn]
    simp only [hx]
  refine ⟨hlog, ?_⟩
  rw [← add_sub_log_fst, hlog]

/-- Witness of C19: the range from 5 down to 2, and a subtraction with borrow-in. -/
theorem add_sub_empty_range_witness :
    ((5 : Int) > 2) ∧
    (add_sub_log true true 0xf006a0000000ab 0x123 true 5 2 =
        (some (0xf006a0000000ab, true), []) ∧
      add_sub true true 0xf006a0000000ab 0x123 true 5 2 = some (0xf006a0000000ab, true)) :=
  ⟨by decide, add_sub_empty_range true true 0xf006a0000000ab 0x123 true 5 2 (by decide)⟩

end DigitArith
